import Mathlib

/-!
# Verification of the function-hcl evaluator against its specification

This file contains a shallow embedding, in Lean 4, of the core data model and
algorithms of the `function-hcl` evaluator (a composition function that turns
an HCL DSL plus an observed-state request into desired Kubernetes resources),
together with theorems settling the frozen claims C1 .. C10 about it.

The embedding follows the Go sources:
  * diagnostics and severity mapping  (`hclutils`, `locals.go`)
  * cty-style dynamic values with unknowns (`go-cty` as used by the code)
  * evaluation contexts as chained frames (`hcl.EvalContext`)
  * `createSelfChildContext`, `extractSymbolTable` (`vars.go`)
  * `unify` / `unifyObjects` (`utils.go`)
  * the locals processor with its depth-first cycle-detecting walker
    (`internal/evaluator/locals/locals.go`)
  * the user-function invoker with its shared depth counter
    (`internal/evaluator/functions/invoke.go`)
  * the block processors `addResource`, `processReady`, `evaluateCondition`,
    `processRequirement`, `processGroup` and the response assembly
    (`resources.go`, `requirements.go`, `eval.go`)
  * `trackBaseNames` / `makeVars` building the `req` namespace (`vars.go`)

Go maps are modelled as association lists; where the Go code iterates a map in
unspecified order the iteration order is taken as an explicit parameter.
go-cty values are immutable; `AsValueMap` returns a fresh map, which the
embedding mirrors by ordinary functional (copying) semantics.
-/

namespace FnHcl

/-! ## Diagnostics -/

/-- Diagnostic severity, mirroring `hcl.DiagError` and `hcl.DiagWarning`. -/
inductive Severity where
  | err
  | warn
deriving DecidableEq, Repr

/-- A single diagnostic.  `unknownRelated` is a model-level tag recording
whether the diagnostic stems from referencing an unknown (incomplete) value;
the Go code does not inspect this property, which is exactly what claim C5 is
about. -/
structure Diag where
  severity : Severity
  summary : String
  unknownRelated : Bool := false
deriving DecidableEq, Repr

/-- `hcl.Diagnostics.HasErrors`. -/
def hasErrors (ds : List Diag) : Bool :=
  ds.any (fun d => d.severity == Severity.err)

/-- `hclutils.DowngradeDiags`: downgrades all errors in the supplied diags to
warnings and returns it. -/
def downgradeDiags (ds : List Diag) : List Diag :=
  ds.map (fun d => if d.severity == Severity.err then { d with severity := Severity.warn } else d)

theorem hasErrors_nil : hasErrors [] = false := rfl

theorem hasErrors_append (a b : List Diag) :
    hasErrors (a ++ b) = (hasErrors a || hasErrors b) := by
  simp [hasErrors, List.any_append]

theorem hasErrors_downgradeDiags (ds : List Diag) : hasErrors (downgradeDiags ds) = false := by
  simp only [hasErrors, downgradeDiags, List.any_map, List.any_eq_false, Function.comp]
  intro d _
  by_cases h : d.severity = Severity.err <;> simp [h]

/-- "`msg` mentions `part`": the message decomposes around the given text. -/
def mentions (msg part : String) : Prop :=
  ∃ s1 s2, msg = s1 ++ part ++ s2

/-! ## cty-style values -/

/-- Intrinsic type tag, the part of `cty.Type` the evaluator inspects. -/
inductive CtyType where
  | boolT
  | numT
  | strT
  | tupT
  | objT
  | dynT
deriving DecidableEq, Repr

/-- A dynamic value in the style of `cty.Value`: scalars, tuples, objects and
unknown values carrying a type hint (`cty.UnknownVal(ty)`; `cty.DynamicVal` is
`unknown dynT`). -/
inductive Value where
  | vBool (b : Bool)
  | vNum (n : Int)
  | vStr (s : String)
  | vNull
  | vTup (elems : List Value)
  | vObj (fields : List (String × Value))
  | unknown (ty : CtyType)

/-- `cty.Value.Type()`, collapsed to the tags the evaluator compares. -/
def Value.typeOf : Value → CtyType
  | .vBool _ => .boolT
  | .vNum _ => .numT
  | .vStr _ => .strT
  | .vNull => .dynT
  | .vTup _ => .tupT
  | .vObj _ => .objT
  | .unknown ty => ty

mutual

/-- `cty.Value.IsWhollyKnown()`: no unknown anywhere in the value. -/
def Value.isWhollyKnown : Value → Bool
  | .vBool _ => true
  | .vNum _ => true
  | .vStr _ => true
  | .vNull => true
  | .vTup xs => valuesWhollyKnown xs
  | .vObj fs => fieldsWhollyKnown fs
  | .unknown _ => false

def valuesWhollyKnown : List Value → Bool
  | [] => true
  | x :: xs => x.isWhollyKnown && valuesWhollyKnown xs

def fieldsWhollyKnown : List (String × Value) → Bool
  | [] => true
  | f :: fs => f.2.isWhollyKnown && fieldsWhollyKnown fs

end

mutual

/-- `findUnknownPaths` (via `cty.Walk` and `path2string`): the dotted/indexed
paths at which unknown values occur. -/
def findUnknownPathsAux : String → Value → List String
  | path, .unknown _ => [path]
  | path, .vTup xs => findUnknownTup path 0 xs
  | path, .vObj fs => findUnknownObj path fs
  | _, .vBool _ => []
  | _, .vNum _ => []
  | _, .vStr _ => []
  | _, .vNull => []

def findUnknownTup : String → Nat → List Value → List String
  | _, _, [] => []
  | path, i, x :: xs =>
    findUnknownPathsAux (path ++ "[" ++ toString i ++ "]") x ++ findUnknownTup path (i + 1) xs

def findUnknownObj : String → List (String × Value) → List String
  | _, [] => []
  | path, f :: fs => findUnknownPathsAux (path ++ "." ++ f.1) f.2 ++ findUnknownObj path fs

end

/-- `findUnknownPaths` entry point (root path is empty). -/
def findUnknownPaths (v : Value) : List String :=
  findUnknownPathsAux "" v

/-! ## Evaluation contexts (`hcl.EvalContext`) -/

/-- Association-list lookup; Go map read. -/
def lookupField {α : Type} : List (String × α) → String → Option α
  | [], _ => none
  | f :: fs, k => if f.1 = k then some f.2 else lookupField fs k

/-- Association-list update; Go map write (`m[k] = v`).  Keys are unique in a
map, so replacing the first occurrence (or appending) is the map semantics. -/
def setField {α : Type} : List (String × α) → String → α → List (String × α)
  | [], k, v => [(k, v)]
  | f :: fs, k, v => if f.1 = k then (k, v) :: fs else f :: setField fs k v

/-- A chain of evaluation frames: `hcl.EvalContext` with `Variables` and
`Parent()`. -/
inductive EvalCtx where
  | root (vars : List (String × Value))
  | child (vars : List (String × Value)) (parent : EvalCtx)

/-- The variables of the nearest frame. -/
def EvalCtx.vars : EvalCtx → List (String × Value)
  | .root vs => vs
  | .child vs _ => vs

/-- `hasVariable`: name defined in the current or any ancestor context. -/
def hasVariable : EvalCtx → String → Bool
  | .root vs, n => (lookupField vs n).isSome
  | .child vs p, n => (lookupField vs n).isSome || hasVariable p n

/-- `extractSymbolTable`: walk the chain for the namespace (e.g. `self`),
returning the fields of the first object bound to it, or an empty table.
(The Go code panics if the binding is not an object; the evaluator only ever
binds objects to namespaces, and the model returns the empty table there.) -/
def extractSymbolTable : EvalCtx → String → List (String × Value)
  | .root vs, ns =>
    match lookupField vs ns with
    | some (.vObj fs) => fs
    | some _ => []
    | none => []
  | .child vs p, ns =>
    match lookupField vs ns with
    | some (.vObj fs) => fs
    | some _ => []
    | none => extractSymbolTable p ns

/-- `createSelfChildContext`: create a `self` var in a child of the supplied
context using the `self` table of the nearest parent context augmented with
the additional values passed. -/
def createSelfChildContext (ctx : EvalCtx) (vars : List (String × Value)) : EvalCtx :=
  let table := extractSymbolTable ctx "self"
  let table := vars.foldl (fun t p => setField t p.1 p.2) table
  .child [("self", .vObj table)] ctx

theorem lookupField_setField {α : Type} (fs : List (String × α)) (k k' : String) (v : α) :
    lookupField (setField fs k v) k' = if k' = k then some v else lookupField fs k' := by
  induction fs with
  | nil => by_cases h : k' = k <;> simp [setField, lookupField, h, Ne.symm]
  | cons f fs ih =>
    by_cases hf : f.1 = k
    · by_cases h : k' = k
      · simp [setField, lookupField, hf, h]
      · have h' : ¬ k = k' := fun hc => h hc.symm
        simp [setField, lookupField, hf, h, h']
    · by_cases hkf : f.1 = k'
      · have : ¬ k' = k := fun hc => hf (hkf.trans hc)
        simp [setField, lookupField, hf, hkf, this]
      · simp [setField, lookupField, hf, hkf, ih]

theorem lookupField_eq_none_of_not_mem_keys {α : Type} (fs : List (String × α)) (k : String)
    (h : k ∉ fs.map Prod.fst) : lookupField fs k = none := by
  induction fs with
  | nil => rfl
  | cons f fs ih =>
    simp only [List.map_cons, List.mem_cons, not_or] at h
    have : ¬ f.1 = k := fun hc => h.1 hc.symm
    simp [lookupField, this, ih h.2]

/-- Folding Go-map writes over a base table: keys not written keep their base
value. -/
theorem lookupField_foldl_setField_of_none {α : Type} (vars : List (String × α))
    (t0 : List (String × α)) (k : String) (h : lookupField vars k = none) :
    lookupField (vars.foldl (fun t p => setField t p.1 p.2) t0) k = lookupField t0 k := by
  induction vars generalizing t0 with
  | nil => rfl
  | cons p rest ih =>
    simp only [lookupField] at h
    by_cases hp : p.1 = k
    · simp [hp] at h
    · simp only [hp, if_false] at h
      simp only [List.foldl_cons]
      rw [ih _ h, lookupField_setField]
      have hk : ¬ k = p.1 := fun hc => hp (Eq.symm hc)
      rw [if_neg hk]

/-- Folding Go-map writes over a base table: written keys get the written
value (keys of a Go map are unique). -/
theorem lookupField_foldl_setField_of_some {α : Type} (vars : List (String × α))
    (t0 : List (String × α)) (k : String) (v : α)
    (hnd : (vars.map Prod.fst).Nodup) (h : lookupField vars k = some v) :
    lookupField (vars.foldl (fun t p => setField t p.1 p.2) t0) k = some v := by
  induction vars generalizing t0 with
  | nil => simp [lookupField] at h
  | cons p rest ih =>
    simp only [List.map_cons, List.nodup_cons] at hnd
    simp only [lookupField] at h
    by_cases hp : p.1 = k
    · simp only [hp, if_pos] at h
      cases h
      have hrest : lookupField rest k = none := by
        apply lookupField_eq_none_of_not_mem_keys
        rw [← hp]
        exact hnd.1
      simp only [List.foldl_cons]
      rw [lookupField_foldl_setField_of_none rest _ k hrest, hp, lookupField_setField]
      simp
    · simp only [hp, if_false] at h
      simp only [List.foldl_cons]
      exact ih _ hnd.2 h

theorem extractSymbolTable_createSelfChildContext (ctx : EvalCtx) (vars : List (String × Value)) :
    extractSymbolTable (createSelfChildContext ctx vars) "self" =
      vars.foldl (fun t p => setField t p.1 p.2) (extractSymbolTable ctx "self") := by
  simp [createSelfChildContext, extractSymbolTable, lookupField]

/-- C10. Creating a child scope for the `self` namespace augments rather than
replaces it: every field of the nearest ancestor `self` binding that is not
among the newly added fields keeps its value, every newly added field is
present with its new value, and in particular the template of a `resources`
block (whose context is `createSelfChildContext` for `name`/`resource`/
`connection` on top of `createSelfChildContext` for `basename`/`resources`/
`connections`) still sees `self.basename`, `self.resources` and
`self.connections` alongside the per-resource bindings. -/
theorem claim_C10_self_child_context_augments :
    (∀ (ctx : EvalCtx) (vars : List (String × Value)) (k : String),
      (lookupField vars k = none →
        lookupField (extractSymbolTable (createSelfChildContext ctx vars) "self") k =
          lookupField (extractSymbolTable ctx "self") k) ∧
      ((vars.map Prod.fst).Nodup → ∀ v, lookupField vars k = some v →
        lookupField (extractSymbolTable (createSelfChildContext ctx vars) "self") k = some v)) ∧
    (∀ (ctx : EvalCtx) (vb vr vc vn vre vco : Value),
      let collCtx := createSelfChildContext ctx
        [("basename", vb), ("resources", vr), ("connections", vc)]
      let resCtx := createSelfChildContext collCtx
        [("name", vn), ("resource", vre), ("connection", vco)]
      let selfTable := extractSymbolTable resCtx "self"
      lookupField selfTable "basename" = some vb ∧
      lookupField selfTable "resources" = some vr ∧
      lookupField selfTable "connections" = some vc ∧
      lookupField selfTable "name" = some vn ∧
      lookupField selfTable "resource" = some vre ∧
      lookupField selfTable "connection" = some vco) := by
  constructor
  · intro ctx vars k
    constructor
    · intro h
      rw [extractSymbolTable_createSelfChildContext]
      exact lookupField_foldl_setField_of_none vars _ k h
    · intro hnd v h
      rw [extractSymbolTable_createSelfChildContext]
      exact lookupField_foldl_setField_of_some vars _ k v hnd h
  · intro ctx vb vr vc vn vre vco
    refine ⟨?_, ?_, ?_, ?_, ?_, ?_⟩ <;>
      rw [extractSymbolTable_createSelfChildContext, extractSymbolTable_createSelfChildContext]
    · have h2 : lookupField [("name", vn), ("resource", vre), ("connection", vco)]
          "basename" = none := rfl
      rw [lookupField_foldl_setField_of_none _ _ _ h2]
      exact lookupField_foldl_setField_of_some _ _ _ _ (by simp) rfl
    · have h2 : lookupField [("name", vn), ("resource", vre), ("connection", vco)]
          "resources" = none := rfl
      rw [lookupField_foldl_setField_of_none _ _ _ h2]
      exact lookupField_foldl_setField_of_some _ _ _ _ (by simp) rfl
    · have h2 : lookupField [("name", vn), ("resource", vre), ("connection", vco)]
          "connections" = none := rfl
      rw [lookupField_foldl_setField_of_none _ _ _ h2]
      exact lookupField_foldl_setField_of_some _ _ _ _ (by simp) rfl
    · exact lookupField_foldl_setField_of_some _ _ _ _ (by simp) rfl
    · exact lookupField_foldl_setField_of_some _ _ _ _ (by simp) rfl
    · exact lookupField_foldl_setField_of_some _ _ _ _ (by simp) rfl

/-! ## Go-side JSON values and unification (`unify` in the evaluator) -/

/-- A decoded JSON value (`any` on the Go side): what status / connection /
context bodies become after the cty→JSON→Go round trip. -/
inductive GoVal where
  | gNull
  | gBool (b : Bool)
  | gNum (n : Int)
  | gStr (s : String)
  | gList (xs : List GoVal)
  | gObj (fields : List (String × GoVal))

/-- An `Object` (`map[string]any`), modelled as an association list with
unique keys. -/
abbrev GoObj := List (String × GoVal)

/-- `reflect.TypeOf` classification of an `any` holding a decoded JSON
value. -/
inductive GoType where
  | nilT
  | boolT
  | numT
  | strT
  | listT
  | objT
deriving DecidableEq, Repr

def GoVal.typeOf : GoVal → GoType
  | .gNull => .nilT
  | .gBool _ => .boolT
  | .gNum _ => .numT
  | .gStr _ => .strT
  | .gList _ => .listT
  | .gObj _ => .objT

/-- Rendering of the type for the "type mismatch" message. -/
def GoType.render : GoType → String
  | .nilT => "<nil>"
  | .boolT => "bool"
  | .numT => "float64"
  | .strT => "string"
  | .listT => "[]any"
  | .objT => "map[string]any"

mutual

/-- `reflect.DeepEqual` on decoded JSON values.  Objects are represented by a
canonical association list, so structural equality is map equality. -/
def GoVal.deepEqual : GoVal → GoVal → Bool
  | .gNull, .gNull => true
  | .gBool a, .gBool b => a == b
  | .gNum a, .gNum b => a == b
  | .gStr a, .gStr b => a == b
  | .gList a, .gList b => goListEqual a b
  | .gObj a, .gObj b => goFieldsEqual a b
  | _, _ => false

def goListEqual : List GoVal → List GoVal → Bool
  | [], [] => true
  | a :: as, b :: bs => a.deepEqual b && goListEqual as bs
  | _, _ => false

def goFieldsEqual : List (String × GoVal) → List (String × GoVal) → Bool
  | [], [] => true
  | a :: as, b :: bs => (a.1 == b.1) && a.2.deepEqual b.2 && goFieldsEqual as bs
  | _, _ => false

end

mutual

theorem GoVal.deepEqual_refl : (v : GoVal) → v.deepEqual v = true
  | .gNull => rfl
  | .gBool _ => by simp [GoVal.deepEqual]
  | .gNum _ => by simp [GoVal.deepEqual]
  | .gStr _ => by simp [GoVal.deepEqual]
  | .gList xs => by simp [GoVal.deepEqual, goListEqual_refl xs]
  | .gObj fs => by simp [GoVal.deepEqual, goFieldsEqual_refl fs]

theorem goListEqual_refl : (xs : List GoVal) → goListEqual xs xs = true
  | [] => rfl
  | x :: xs => by simp [goListEqual, GoVal.deepEqual_refl x, goListEqual_refl xs]

theorem goFieldsEqual_refl : (fs : List (String × GoVal)) → goFieldsEqual fs fs = true
  | [] => rfl
  | f :: fs => by simp [goFieldsEqual, GoVal.deepEqual_refl f.2, goFieldsEqual_refl fs]

end

/-- The path step of `unifyObjects`: `currentPath := k` when at the root,
`path.k` otherwise. -/
def dotJoin (pre k : String) : String :=
  if pre == "" then k else pre ++ "." ++ k

/-- The dotted rendering of a whole key path below a prefix. -/
def dotPath (pre : String) (path : List String) : String :=
  path.foldl dotJoin pre

/-- `unifyObjects`, the recursive worker of `unify`: deep merge with conflict
detection.  The `fuel` argument bounds the recursion depth (the Go function
recurses on strictly shallower objects; `unify` below supplies enough fuel for
its inputs, so the fuel case is unreachable). -/
def unifyObjects : Nat → String → List GoObj → Except String GoObj
  | 0, _, _ => .error "unify recursion limit"
  | fuel + 1, path, objects =>
    objects.foldlM (fun ret obj =>
      obj.foldlM (fun ret kv =>
        let k := kv.1
        let v := kv.2
        let currentPath := dotJoin path k
        match lookupField ret k with
        | none => .ok (setField ret k v)
        | some existing =>
          if existing.typeOf ≠ v.typeOf then
            .error ("type mismatch for key " ++ currentPath ++ ":  " ++
              v.typeOf.render ++ " v/s " ++ existing.typeOf.render)
          else
            match existing, v with
            | .gObj e, .gObj vf => do
              let unified ← unifyObjects fuel currentPath [vf, e]
              .ok (setField ret k (.gObj unified))
            | _, _ =>
              if v.deepEqual existing then
                .ok ret
              else
                .error ("values for key " ++ currentPath ++ " not equal"))
        ret)
      []

mutual

/-- Nesting depth of a value (only objects add depth, mirroring what
`unifyObjects` recurses into). -/
def GoVal.objDepth : GoVal → Nat
  | .gObj fs => 1 + goFieldsDepth fs
  | .gList _ => 0
  | .gNull => 0
  | .gBool _ => 0
  | .gNum _ => 0
  | .gStr _ => 0

def goFieldsDepth : List (String × GoVal) → Nat
  | [] => 0
  | f :: fs => max f.2.objDepth (goFieldsDepth fs)

end

/-- `unify`: entry point used at response-assembly time for statuses and
contexts.  Supplies recursion fuel exceeding the nesting depth of the
inputs. -/
def unify (inputs : List GoObj) : Except String GoObj :=
  unifyObjects (1 + inputs.foldl (fun acc o => max acc (goFieldsDepth o)) 0) "" inputs

/-- The value sitting below a chain of singleton objects: `nestVal [a, b] v`
is the JSON value `a: (b: v)`. -/
def nestVal : List String → GoVal → GoVal
  | [], v => v
  | k :: rest, v => .gObj [(k, nestVal rest v)]

/-- A singleton object carrying exactly one (possibly deeply nested) key
path. -/
def nestFields : List String → GoVal → GoObj
  | [], _ => []
  | k :: rest, v => [(k, nestVal rest v)]

/-- Look up a nested key path inside a value. -/
def lookupValPath : GoVal → List String → Option GoVal
  | v, [] => some v
  | .gObj o, k :: rest =>
    match lookupField o k with
    | some w => lookupValPath w rest
    | none => none
  | _, _ :: _ => none

theorem dotPath_cons (pre k : String) (rest : List String) :
    dotPath pre (k :: rest) = dotPath (dotJoin pre k) rest := rfl

theorem nestFields_cons (k : String) (l : List String) (v : GoVal) :
    nestFields (k :: l) v = [(k, nestVal l v)] := rfl

theorem nestVal_eq_gObj (l : List String) (v : GoVal) (h : l ≠ []) :
    nestVal l v = .gObj (nestFields l v) := by
  cases l with
  | nil => exact absurd rfl h
  | cons k rest => rfl

theorem nestVal_append (a b : List String) (v : GoVal) :
    nestVal (a ++ b) v = nestVal a (nestVal b v) := by
  induction a with
  | nil => rfl
  | cons k rest ih => simp [nestVal, ih]

theorem nestVal_objDepth (rest : List String) (v : GoVal) :
    (nestVal rest v).objDepth = rest.length + v.objDepth := by
  induction rest with
  | nil => simp [nestVal]
  | cons k rs ih => simp [nestVal, GoVal.objDepth, goFieldsDepth, ih]; omega

/-- The conflict half of unification: a shared dotted path holding values
that are not both objects and not deep-equal is an error mentioning the
path. -/
theorem unifyObjects_conflict (path : List String) :
    ∀ (fuel : Nat) (pre : String) (v1 v2 : GoVal),
      path.length ≤ fuel → path ≠ [] →
      ¬(v1.typeOf = .objT ∧ v2.typeOf = .objT) →
      v1.deepEqual v2 = false → v2.deepEqual v1 = false →
      ∃ msg, unifyObjects fuel pre [nestFields path v1, nestFields path v2] = .error msg ∧
        mentions msg (dotPath pre path) := by
  induction path with
  | nil => intro _ _ _ _ _ hne; exact absurd rfl hne
  | cons k rest ih =>
    intro fuel pre v1 v2 hfuel _ hobj hde12 hde21
    simp only [List.length_cons] at hfuel
    obtain ⟨f, rfl⟩ : ∃ f, fuel = f + 1 := ⟨fuel - 1, by omega⟩
    cases rest with
    | nil =>
      by_cases hty : v1.typeOf = v2.typeOf
      · have hnotobj : v1.typeOf ≠ .objT ∨ v2.typeOf ≠ .objT := by tauto
        refine ⟨"values for key " ++ dotJoin pre k ++ " not equal", ?_, ?_⟩
        · cases v1 <;> cases v2 <;>
            simp_all [unifyObjects, List.foldlM, nestFields, nestVal, lookupField, setField,
              GoVal.typeOf, bind, Except.bind, pure, Except.pure]
        · exact ⟨"values for key ", " not equal", by
            simp [dotPath, String.append_assoc]⟩
      · refine ⟨"type mismatch for key " ++ dotJoin pre k ++ ":  " ++
          v2.typeOf.render ++ " v/s " ++ v1.typeOf.render, ?_, ?_⟩
        · have hty' : v1.typeOf ≠ v2.typeOf := hty
          simp [unifyObjects, List.foldlM, nestFields, nestVal, lookupField, setField,
            bind, Except.bind, pure, Except.pure, hty']
        · exact ⟨"type mismatch for key ", ":  " ++ v2.typeOf.render ++ " v/s " ++
            v1.typeOf.render, by simp [dotPath, String.append_assoc]⟩
    | cons r rs =>
      have hfuel' : (r :: rs).length ≤ f := by simp only [List.length_cons] at hfuel ⊢; omega
      obtain ⟨msg, hmsg, hment⟩ :=
        ih f (dotJoin pre k) v2 v1 hfuel' (by simp) (by tauto) hde21 hde12
      refine ⟨msg, ?_, ?_⟩
      · simp [unifyObjects, List.foldlM, nestFields, nestVal, lookupField, setField,
          GoVal.typeOf, bind, Except.bind, pure, Except.pure] at hmsg ⊢
        simp [hmsg]
      · rw [dotPath_cons]
        exact hment

/-- The deep-equal half: the same non-object value at the same dotted path
unifies to itself. -/
theorem unifyObjects_selfEqual (path : List String) :
    ∀ (fuel : Nat) (pre : String) (v : GoVal),
      path.length ≤ fuel → path ≠ [] → v.typeOf ≠ .objT →
      unifyObjects fuel pre [nestFields path v, nestFields path v] =
        .ok (nestFields path v) := by
  induction path with
  | nil => intro _ _ _ _ hne; exact absurd rfl hne
  | cons k rest ih =>
    intro fuel pre v hfuel _ hobj
    simp only [List.length_cons] at hfuel
    obtain ⟨f, rfl⟩ : ∃ f, fuel = f + 1 := ⟨fuel - 1, by omega⟩
    cases rest with
    | nil =>
      cases v <;>
        simp_all [unifyObjects, List.foldlM, nestFields, nestVal, lookupField, setField,
          GoVal.typeOf, GoVal.deepEqual_refl, bind, Except.bind, pure, Except.pure]
    | cons r rs =>
      have hfuel' : (r :: rs).length ≤ f := by simp only [List.length_cons] at hfuel ⊢; omega
      have hrec := ih f (dotJoin pre k) v hfuel' (by simp) hobj
      simp [unifyObjects, List.foldlM, nestFields, nestVal, lookupField, setField,
        GoVal.typeOf, bind, Except.bind, pure, Except.pure] at hrec ⊢
      simp [hrec, setField]

/-- The disjoint half: two singleton objects sharing a prefix but ending in
different keys merge into an object holding both paths. -/
theorem unifyObjects_disjoint (p : List String) :
    ∀ (fuel : Nat) (pre : String) (k1 k2 : String) (x1 x2 : GoVal),
      p.length + 1 ≤ fuel → k1 ≠ k2 →
      ∃ merged,
        unifyObjects fuel pre [nestFields (p ++ [k1]) x1, nestFields (p ++ [k2]) x2] =
          .ok merged ∧
        lookupValPath (.gObj merged) (p ++ [k1]) = some x1 ∧
        lookupValPath (.gObj merged) (p ++ [k2]) = some x2 := by
  induction p with
  | nil =>
    intro fuel pre k1 k2 x1 x2 hfuel hk
    obtain ⟨f, rfl⟩ : ∃ f, fuel = f + 1 := ⟨fuel - 1, by omega⟩
    refine ⟨[(k1, x1), (k2, x2)], ?_, ?_, ?_⟩
    · simp [unifyObjects, List.foldlM, nestFields, nestVal, lookupField, setField, hk,
        bind, Except.bind, pure, Except.pure]
    · simp [lookupValPath, lookupField]
    · simp [lookupValPath, lookupField, hk, Ne.symm hk]
  | cons q rest ih =>
    intro fuel pre k1 k2 x1 x2 hfuel hk
    obtain ⟨f, rfl⟩ : ∃ f, fuel = f + 1 := ⟨fuel - 1, by omega⟩
    have hfuel' : rest.length + 1 ≤ f := by simpa using hfuel
    obtain ⟨merged, hmerged, h1, h2⟩ := ih f (dotJoin pre q) k2 k1 x2 x1 hfuel' (Ne.symm hk)
    have e1 : nestVal (rest ++ [k1]) x1 = .gObj (nestFields (rest ++ [k1]) x1) :=
      nestVal_eq_gObj _ _ (by simp)
    have e2 : nestVal (rest ++ [k2]) x2 = .gObj (nestFields (rest ++ [k2]) x2) :=
      nestVal_eq_gObj _ _ (by simp)
    refine ⟨[(q, .gObj merged)], ?_, ?_, ?_⟩
    · simp [unifyObjects, List.foldlM, nestFields_cons, e1, e2, lookupField, setField,
        GoVal.typeOf, bind, Except.bind, pure, Except.pure, hmerged]
    · simp only [List.cons_append, lookupValPath, lookupField, if_pos]
      simpa [lookupValPath, lookupField] using h2
    · simp only [List.cons_append, lookupValPath, lookupField, if_pos]
      simpa [lookupValPath, lookupField] using h1

theorem goFieldsDepth_nestFields (l : List String) (v : GoVal) (h : l ≠ []) :
    goFieldsDepth (nestFields l v) = (l.length - 1) + v.objDepth := by
  cases l with
  | nil => exact absurd rfl h
  | cons k rest =>
    simp [nestFields, goFieldsDepth, nestVal_objDepth, List.length_cons]

/-- C4. `unify` over object inputs performs a recursive deep merge: a key
shared by two inputs succeeds only when the values are deep-equal or both are
objects (which are merged recursively); a type mismatch or unequal non-object
values at a shared dotted path yield an error mentioning that dotted path;
and inputs whose key paths diverge at the last step merge into an object
containing both paths. -/
theorem claim_C4_unify_deep_merge :
    (∀ (path : List String) (v1 v2 : GoVal),
      path ≠ [] →
      ¬(v1.typeOf = GoType.objT ∧ v2.typeOf = GoType.objT) →
      v1.deepEqual v2 = false → v2.deepEqual v1 = false →
      ∃ msg, unify [nestFields path v1, nestFields path v2] = .error msg ∧
        mentions msg (dotPath "" path)) ∧
    (∀ (path : List String) (v : GoVal),
      path ≠ [] → v.typeOf ≠ GoType.objT →
      unify [nestFields path v, nestFields path v] = .ok (nestFields path v)) ∧
    (∀ (p : List String) (k1 k2 : String) (x1 x2 : GoVal),
      k1 ≠ k2 →
      ∃ merged, unify [nestFields (p ++ [k1]) x1, nestFields (p ++ [k2]) x2] = .ok merged ∧
        lookupValPath (.gObj merged) (p ++ [k1]) = some x1 ∧
        lookupValPath (.gObj merged) (p ++ [k2]) = some x2) := by
  refine ⟨?_, ?_, ?_⟩
  · intro path v1 v2 hne hobj h12 h21
    refine unifyObjects_conflict path _ "" v1 v2 ?_ hne hobj h12 h21
    cases path with
    | nil => exact absurd rfl hne
    | cons k rest =>
      simp [List.foldl_cons, List.foldl_nil, goFieldsDepth_nestFields, List.length_cons]
      omega
  · intro path v hne hobj
    refine unifyObjects_selfEqual path _ "" v ?_ hne hobj
    cases path with
    | nil => exact absurd rfl hne
    | cons k rest =>
      simp [List.foldl_cons, List.foldl_nil, goFieldsDepth_nestFields, List.length_cons]
      omega
  · intro p k1 k2 x1 x2 hk
    refine unifyObjects_disjoint p _ "" k1 k2 x1 x2 ?_ hk
    have h1 : goFieldsDepth (nestFields (p ++ [k1]) x1) = p.length + x1.objDepth := by
      rw [goFieldsDepth_nestFields _ _ (by simp)]
      simp
    have h2 : goFieldsDepth (nestFields (p ++ [k2]) x2) = p.length + x2.objDepth := by
      rw [goFieldsDepth_nestFields _ _ (by simp)]
      simp
    simp [List.foldl_cons, List.foldl_nil, h1, h2]
    omega

/-- Witness for C4 at the spec's own scenario: key `a.b.c` set to 10 and 12
conflicts naming `a.b.c`; equal strings unify; disjoint keys under `a.b`
deep-merge. -/
theorem claim_C4_witness :
    (∃ msg,
      unify [nestFields ["a", "b", "c"] (.gNum 10), nestFields ["a", "b", "c"] (.gNum 12)] =
        .error msg ∧ mentions msg (dotPath "" ["a", "b", "c"])) ∧
    unify [nestFields ["a", "b"] (.gStr "s"), nestFields ["a", "b"] (.gStr "s")] =
      .ok (nestFields ["a", "b"] (.gStr "s")) ∧
    (∃ merged,
      unify [nestFields (["a", "b"] ++ ["x"]) (.gNum 10),
             nestFields (["a", "b"] ++ ["y"]) (.gNum 12)] = .ok merged ∧
      lookupValPath (.gObj merged) (["a", "b"] ++ ["x"]) = some (.gNum 10) ∧
      lookupValPath (.gObj merged) (["a", "b"] ++ ["y"]) = some (.gNum 12)) :=
  ⟨claim_C4_unify_deep_merge.1 ["a", "b", "c"] (.gNum 10) (.gNum 12)
      (by simp) (by simp [GoVal.typeOf]) (by decide) (by decide),
   claim_C4_unify_deep_merge.2.1 ["a", "b"] (.gStr "s") (by simp) (by simp [GoVal.typeOf]),
   claim_C4_unify_deep_merge.2.2 ["a", "b"] "x" "y" (.gNum 10) (.gNum 12) (by decide)⟩

/-! ## User functions and the `invoke` depth counter -/

/-- The body of a user function, reduced to the part relevant to invocation
mechanics: either a constant or a call of another (or the same) user function
through the `invoke` built-in. -/
inductive FExpr where
  | lit (v : Int)
  | invokeE (fname : String)

/-- A loaded user function (`UserFunction`): for the invocation-depth claims
only the body matters. -/
structure UserFn where
  body : FExpr

/-- `maxDepth` in the functions package. -/
def maxDepth : Nat := 100

/-- The depth-limit error message as built by the Go code. -/
def maxDepthMsg : String :=
  "user function calls: " ++ "max depth " ++ toString maxDepth ++ " exceeded"

/-- Invocation errors: either an error produced by the Go code (carrying its
message) or the model-only fuel sentinel, which is proved unreachable. -/
inductive InvokeErr where
  | goErr (msg : String)
  | fuelOut
deriving DecidableEq, Repr

/-- `invoker.invoke` together with `UserFunction.invoke` and body
evaluation.  The state threaded through is the shared depth counter
`i.depth`; the result pairs the evaluation outcome with the counter value
after the call returns.  The structure mirrors the Go code exactly: the
counter is incremented on entry; if it then reaches `maxDepth` the function
returns before the decrement is deferred (so that increment is never undone
on this path); every other exit path decrements on the way out.  The `fuel`
argument is a modelling artifact bounding the recursion depth; thanks to the
depth check the `fuelOut` case is unreachable once `fuel + depth` covers
`maxDepth` (`invokerInvoke_no_fuel_sentinel`), which is the termination
argument for the Go code. -/
def invokerInvoke (fns : List (String × UserFn)) : Nat → String → Nat → Except InvokeErr Int × Nat
  | 0, _, depth =>
    let d := depth + 1
    if d ≥ maxDepth then (.error (.goErr maxDepthMsg), d)
    else (.error .fuelOut, d - 1)
  | fuel + 1, name, depth =>
    let d := depth + 1
    if d ≥ maxDepth then
      (.error (.goErr maxDepthMsg), d)
    else
      match lookupField fns name with
      | none => (.error (.goErr ("user function '" ++ name ++ "' not found")), d - 1)
      | some f =>
        match f.body with
        | .lit v => (.ok v, d - 1)
        | .invokeE name' =>
          let r := invokerInvoke fns fuel name' d
          (r.1, r.2 - 1)

/-- `IsChain fns name k`: invoking `name` leads to exactly `k` further nested
`invoke` calls before reaching a constant body. -/
def IsChain (fns : List (String × UserFn)) : String → Nat → Prop
  | name, 0 => ∃ v, lookupField fns name = some ⟨.lit v⟩
  | name, k + 1 => ∃ name', lookupField fns name = some ⟨.invokeE name'⟩ ∧ IsChain fns name' k

/-- `HasSteps fns name m`: at least `m` nested invoke steps are possible from
`name` (the chain may continue, e.g. a self-recursive function has arbitrarily
many steps). -/
def HasSteps (fns : List (String × UserFn)) : String → Nat → Prop
  | _, 0 => True
  | name, m + 1 => ∃ name', lookupField fns name = some ⟨.invokeE name'⟩ ∧ HasSteps fns name' m

/-- `IsChainTo fns name k`: `k` nested invoke steps from `name` end at a
function name that is not defined. -/
def IsChainTo (fns : List (String × UserFn)) : String → Nat → Prop
  | name, 0 => lookupField fns name = none
  | name, k + 1 => ∃ name', lookupField fns name = some ⟨.invokeE name'⟩ ∧ IsChainTo fns name' k

/-- The model's fuel sentinel never surfaces once `fuel + depth` covers the
depth limit: the Go recursion always terminates via the depth check. -/
theorem invokerInvoke_no_fuel_sentinel (fuel : Nat) :
    ∀ (fns : List (String × UserFn)) (name : String) (depth : Nat),
      fuel + depth ≥ maxDepth →
      (invokerInvoke fns fuel name depth).1 ≠ .error .fuelOut := by
  induction fuel with
  | zero =>
    intro fns name depth hge
    have hd : depth + 1 ≥ maxDepth := by omega
    simp [invokerInvoke, hd]
  | succ fuel ih =>
    intro fns name depth hge
    by_cases hd : depth + 1 ≥ maxDepth
    · simp [invokerInvoke, hd]
    · cases hlk : lookupField fns name with
      | none => simp [invokerInvoke, hd, hlk]
      | some f =>
        cases hb : f.body with
        | lit v => simp [invokerInvoke, hd, hlk, hb]
        | invokeE name' =>
          have := ih fns name' (depth + 1) (by omega)
          simpa [invokerInvoke, hd, hlk, hb] using this

/-- Behaviour of a chain of nested invokes that stays strictly below the
depth limit: the result is a value and the counter is restored. -/
theorem invokerInvoke_ok (k : Nat) :
    ∀ (fns : List (String × UserFn)) (name : String) (depth fuel : Nat),
      IsChain fns name k →
      depth + k + 1 < maxDepth →
      fuel ≥ k + 1 →
      ∃ v, invokerInvoke fns fuel name depth = (.ok v, depth) := by
  induction k with
  | zero =>
    intro fns name depth fuel hchain hdepth hfuel
    obtain ⟨v, hv⟩ := hchain
    obtain ⟨f, rfl⟩ : ∃ f, fuel = f + 1 := ⟨fuel - 1, by omega⟩
    have hd : ¬ depth + 1 ≥ maxDepth := by omega
    exact ⟨v, by simp [invokerInvoke, hd, hv]⟩
  | succ k ih =>
    intro fns name depth fuel hchain hdepth hfuel
    obtain ⟨name', hv, hchain'⟩ := hchain
    obtain ⟨f, rfl⟩ : ∃ f, fuel = f + 1 := ⟨fuel - 1, by omega⟩
    obtain ⟨v, hrec⟩ := ih fns name' (depth + 1) f hchain' (by omega) (by omega)
    have hd : ¬ depth + 1 ≥ maxDepth := by omega
    exact ⟨v, by simp [invokerInvoke, hd, hv, hrec]⟩

/-- Behaviour of a chain of nested invokes that reaches the depth limit: the
result is the depth error and the counter is left one above its initial
value (the increment performed by the failing call is never undone, because
the Go code returns before registering the deferred decrement). -/
theorem invokerInvoke_depthErr (m : Nat) :
    ∀ (fns : List (String × UserFn)) (name : String) (depth fuel : Nat),
      HasSteps fns name m →
      depth + 1 + m = maxDepth →
      fuel ≥ m + 1 →
      invokerInvoke fns fuel name depth = (.error (.goErr maxDepthMsg), depth + 1) := by
  induction m with
  | zero =>
    intro fns name depth fuel _ hdepth hfuel
    obtain ⟨f, rfl⟩ : ∃ f, fuel = f + 1 := ⟨fuel - 1, by omega⟩
    have hd : depth + 1 ≥ maxDepth := by omega
    simp [invokerInvoke, hd]
  | succ m ih =>
    intro fns name depth fuel hsteps hdepth hfuel
    obtain ⟨name', hv, hsteps'⟩ := hsteps
    obtain ⟨f, rfl⟩ : ∃ f, fuel = f + 1 := ⟨fuel - 1, by omega⟩
    have hrec := ih fns name' (depth + 1) f hsteps' (by omega) (by omega)
    have hd : ¬ depth + 1 ≥ maxDepth := by omega
    simp [invokerInvoke, hd, hv, hrec]

/-- Behaviour when the bottom of the chain names a missing function: the
error propagates and the counter is restored (the deferred decrement runs on
this error path). -/
theorem invokerInvoke_notFound (k : Nat) :
    ∀ (fns : List (String × UserFn)) (name : String) (depth fuel : Nat),
      IsChainTo fns name k →
      depth + k + 1 < maxDepth →
      fuel ≥ k + 1 →
      ∃ missing, lookupField fns missing = none ∧
        invokerInvoke fns fuel name depth =
          (.error (.goErr ("user function '" ++ missing ++ "' not found")), depth) := by
  induction k with
  | zero =>
    intro fns name depth fuel hchain hdepth hfuel
    obtain ⟨f, rfl⟩ : ∃ f, fuel = f + 1 := ⟨fuel - 1, by omega⟩
    have hd : ¬ depth + 1 ≥ maxDepth := by omega
    have hmiss : lookupField fns name = none := hchain
    exact ⟨name, hmiss, by simp [invokerInvoke, hd, hmiss]⟩
  | succ k ih =>
    intro fns name depth fuel hchain hdepth hfuel
    obtain ⟨name', hv, hchain'⟩ := hchain
    obtain ⟨f, rfl⟩ : ∃ f, fuel = f + 1 := ⟨fuel - 1, by omega⟩
    obtain ⟨missing, hmiss, hrec⟩ := ih fns name' (depth + 1) f hchain' (by omega) (by omega)
    have hd : ¬ depth + 1 ≥ maxDepth := by omega
    exact ⟨missing, hmiss, by simp [invokerInvoke, hd, hv, hrec]⟩

/-- A self-recursive user function allows arbitrarily many invoke steps. -/
theorem selfLoopSteps : ∀ m, HasSteps [("f", ⟨.invokeE "f"⟩)] "f" m
  | 0 => trivial
  | m + 1 => ⟨"f", rfl, selfLoopSteps m⟩

/-- C7 counterexample.  The claim states that the depth counter is restored
on exit from each call even when an error occurs.  On the self-recursive
function `f` invoked with the counter at 0, the depth-limit error fires and
the run ends with the shared counter at 1, not 0: the call that raises the
depth error returns before its deferred decrement is registered, so its
increment leaks. -/
theorem claim_C7_counterexample :
    invokerInvoke [("f", ⟨.invokeE "f"⟩)] 200 "f" 0 =
      (.error (.goErr maxDepthMsg), 1) ∧ (1 : Nat) ≠ 0 := by
  refine ⟨?_, by omega⟩
  exact invokerInvoke_depthErr 99 _ "f" 0 200 (selfLoopSteps 99) (by decide) (by omega)

/-- C7 (amended).  User-function invocation is bounded by the shared depth
counter with bound 100: a chain that stays strictly below the bound returns a
value with the counter restored; a chain that reaches the bound fails with
the fatal `max depth 100 exceeded` error, and on that error path the counter
is left one above its initial value (the failing call's increment is never
undone); non-depth errors (unknown function) restore the counter; and the
recursion always terminates (the model's fuel bound is never hit once it
covers the depth limit). -/
theorem claim_C7_invoke_depth_bound :
    (∀ (fns : List (String × UserFn)) (name : String) (k depth fuel : Nat),
      IsChain fns name k → depth + k + 1 < maxDepth → fuel ≥ k + 1 →
      ∃ v, invokerInvoke fns fuel name depth = (.ok v, depth)) ∧
    (∀ (fns : List (String × UserFn)) (name : String) (m depth fuel : Nat),
      HasSteps fns name m → depth + 1 + m = maxDepth → fuel ≥ m + 1 →
      invokerInvoke fns fuel name depth = (.error (.goErr maxDepthMsg), depth + 1) ∧
      mentions maxDepthMsg ("max depth 100 exceeded")) ∧
    (∀ (fns : List (String × UserFn)) (name : String) (k depth fuel : Nat),
      IsChainTo fns name k → depth + k + 1 < maxDepth → fuel ≥ k + 1 →
      ∃ missing, invokerInvoke fns fuel name depth =
        (.error (.goErr ("user function '" ++ missing ++ "' not found")), depth)) ∧
    (∀ (fns : List (String × UserFn)) (name : String) (depth fuel : Nat),
      fuel + depth ≥ maxDepth →
      (invokerInvoke fns fuel name depth).1 ≠ .error .fuelOut) := by
  refine ⟨?_, ?_, ?_, ?_⟩
  · intro fns name k depth fuel hchain hdepth hfuel
    exact invokerInvoke_ok k fns name depth fuel hchain hdepth hfuel
  · intro fns name m depth fuel hsteps hdepth hfuel
    refine ⟨invokerInvoke_depthErr m fns name depth fuel hsteps hdepth hfuel, ?_⟩
    exact ⟨"user function calls: ", "", by decide⟩
  · intro fns name k depth fuel hchain hdepth hfuel
    obtain ⟨missing, _, h⟩ := invokerInvoke_notFound k fns name depth fuel hchain hdepth hfuel
    exact ⟨missing, h⟩
  · intro fns name depth fuel hge
    exact invokerInvoke_no_fuel_sentinel fuel fns name depth hge

/-- Witness for C7 at concrete inputs: a one-step chain returns with the
counter restored; the self-recursive chain hits the bound; a call of a
missing function restores the counter; ample fuel never hits the model
sentinel. -/
theorem claim_C7_witness :
    (∃ v, invokerInvoke [("g", ⟨.lit 7⟩)] 1 "g" 0 = (.ok v, 0)) ∧
    (invokerInvoke [("f", ⟨.invokeE "f"⟩)] 100 "f" 0 =
      (.error (.goErr maxDepthMsg), 1) ∧
      mentions maxDepthMsg ("max depth 100 exceeded")) ∧
    (∃ missing, invokerInvoke [("h", ⟨.invokeE "nope"⟩)] 2 "h" 0 =
      (.error (.goErr ("user function '" ++ missing ++ "' not found")), 0)) ∧
    (invokerInvoke [] 100 "f" 0).1 ≠ .error .fuelOut :=
  ⟨claim_C7_invoke_depth_bound.1 [("g", ⟨.lit 7⟩)] "g" 0 0 1 ⟨7, rfl⟩ (by decide) (by omega),
   claim_C7_invoke_depth_bound.2.1 [("f", ⟨.invokeE "f"⟩)] "f" 99 0 100
     (selfLoopSteps 99) (by decide) (by omega),
   claim_C7_invoke_depth_bound.2.2.1 [("h", ⟨.invokeE "nope"⟩)] "h" 1 0 2
     ⟨"nope", rfl, rfl⟩ (by decide) (by omega),
   claim_C7_invoke_depth_bound.2.2.2 [] "f" 0 100 (by decide)⟩

/-- Witness for C10: on a concrete base context, a field not among the new
bindings keeps its ancestor value, and a new binding is present. -/
theorem claim_C10_witness :
    (lookupField [("a", Value.vNull)] "q" = none ∧
      lookupField (extractSymbolTable (createSelfChildContext
          (.root [("self", .vObj [("q", .vStr "x")])]) [("a", .vNull)]) "self") "q" =
        lookupField (extractSymbolTable
          ((.root [("self", .vObj [("q", .vStr "x")])]) : EvalCtx) "self") "q") ∧
    (([("a", Value.vNull)].map Prod.fst).Nodup ∧
      lookupField (extractSymbolTable (createSelfChildContext
          (.root [("self", .vObj [("q", .vStr "x")])]) [("a", .vNull)]) "self") "a" =
        some .vNull) :=
  ⟨⟨rfl, (claim_C10_self_child_context_augments.1
      (.root [("self", .vObj [("q", .vStr "x")])]) [("a", .vNull)] "q").1 rfl⟩,
   ⟨by simp, (claim_C10_self_child_context_augments.1
      (.root [("self", .vObj [("q", .vStr "x")])]) [("a", .vNull)] "a").2 (by simp) _ rfl⟩⟩

/-! ## The locals processor (`internal/evaluator/locals/locals.go`) -/

/-- An HCL expression as the locals processor sees it: the root names of its
free traversals (`expr.Variables()`) and its evaluation function (supplied by
the external expression engine). -/
structure LExpr where
  vars : List String
  eval : EvalCtx → Value × List Diag

/-- `exprDeps`: an expression plus its computed local-to-local
dependencies. -/
structure ExprDeps where
  expr : LExpr
  deps : List String

/-- An error diagnostic as produced by `hclutils.ToErrorDiag`. -/
def errDiag (s : String) : Diag := ⟨Severity.err, s, false⟩

/-- `computeDeps`: for every free root name of each local, record it as a
dependency when it is itself a local, accept it when the context binds it,
and fail otherwise.  Does not detect cycles. -/
def computeDeps (ctx : EvalCtx) (locals : List (String × LExpr)) :
    Except (List Diag) (List (String × ExprDeps)) :=
  locals.mapM (fun nv => do
    let deps ← nv.2.vars.foldlM (fun acc reference =>
      if (lookupField locals reference).isSome then
        Except.ok (acc ++ [reference])
      else if hasVariable ctx reference then
        Except.ok acc
      else
        Except.error [errDiag "reference to non-existent variable"]) []
    Except.ok (nv.1, ExprDeps.mk nv.2 deps))

/-- The suffix of the path starting at the first occurrence of `name`
(`e.path[index:]` in `evalPath.push`). -/
def cycleSuffix : List String → String → Option (List String)
  | [], _ => none
  | v :: rest, name => if v = name then some (v :: rest) else cycleSuffix rest name

/-- `strings.Join(names, " \u2192 ")`. -/
def arrowJoin : List String → String
  | [] => ""
  | [x] => x
  | x :: y :: rest => x ++ " \u2192 " ++ arrowJoin (y :: rest)

/-- The message of `evalPath.push` on a repeated name. -/
def renderCycle (l : List String) : String :=
  "cycle found: " ++ arrowJoin l

/-- `evalPath.push`: fail when the name is already on the stack, reporting
the cycle from its first occurrence. -/
def pathPush (path : List String) (name : String) : Except String (List String) :=
  match cycleSuffix path name with
  | some suffix => .error (renderCycle (suffix ++ [name]))
  | none => .ok (path ++ [name])

/-- The mutable state threaded through `evalLocal`: the child context frame
being filled (`c.ctx.Variables`), the remaining set, and — as model-only
instrumentation — the order in which local expressions were evaluated. -/
structure LState where
  vars : List (String × Value)
  remaining : List String
  log : List String

/-- The model-only fuel-exhaustion diagnostic (proved unreachable for the
fuel supplied by `evalAllLocals`). -/
def fuelDiag : Diag := ⟨Severity.err, "model fuel exhausted", false⟩

/-- The loop body of `evalLocal` over the dependency list: evaluate each
still-remaining dependency, accumulating state and diagnostics.  `step` is
the recursive evaluation of a single dependency (at one less fuel). -/
def evalDepsWith (step : LState → String → LState × List Diag) :
    LState × List Diag → List String → LState × List Diag
  | acc, [] => acc
  | acc, dep :: deps =>
    if dep ∈ acc.1.remaining then
      let r := step acc.1 dep
      evalDepsWith step (r.1, acc.2 ++ r.2) deps
    else
      evalDepsWith step acc deps

/-- One unfolding of `evalLocal`, with the recursive call abstracted as
`inner` (the fuel-indexed embedding of the Go recursion).  Mirrors the Go
code: the name is skipped when no longer remaining; a push failure returns
the cycle error without touching `remaining` (the deferred cleanup is
registered only after a successful push); dependency errors remove the name
and propagate; otherwise the expression is evaluated, all errors the
expression engine produced are downgraded to warnings
(`hclutils.DowngradeDiags`), and the value is stored in the child frame. -/
def evalLocalStep (parent : EvalCtx) (locals : List (String × ExprDeps))
    (inner : List String → LState → String → LState × List Diag)
    (path : List String) (st : LState) (name : String) : LState × List Diag :=
  if name ∈ st.remaining then
    match pathPush path name with
    | .error msg => (st, [errDiag msg])
    | .ok path' =>
      match lookupField locals name with
      | none => (st, [])
      | some info =>
        let acc := evalDepsWith (inner path') (st, []) info.deps
        if hasErrors acc.2 then
          ({ acc.1 with remaining := acc.1.remaining.erase name }, acc.2)
        else
          let r := info.expr.eval (.child acc.1.vars parent)
          ({ vars := setField acc.1.vars name r.1,
             remaining := acc.1.remaining.erase name,
             log := acc.1.log ++ [name] }, acc.2 ++ downgradeDiags r.2)
  else (st, [])

/-- `evalLocal`: evaluates a single local, ensuring its dependencies are
evaluated first; maintains the push/pop path stack for cycle detection (the
`path` parameter plays the role of `c.seen`: pushing = extending the
parameter, popping = returning).  The fuel indexes the recursion depth;
`evalAllLocals` supplies enough for it never to run out. -/
def evalLocal (parent : EvalCtx) (locals : List (String × ExprDeps)) :
    Nat → List String → LState → String → LState × List Diag
  | 0 => fun _ st _ => (st, [fuelDiag])
  | fuel + 1 => evalLocalStep parent locals (evalLocal parent locals fuel)

/-- The loop of `Processor.eval` over the iteration order of the Go map
range: each top-level call starts with a fresh path stack and the shared
remaining set. -/
def evalAllLocalsFrom (parent : EvalCtx) (locals : List (String × ExprDeps)) :
    List String → LState × List Diag → LState × List Diag
  | [], acc => acc
  | name :: names, acc =>
    let r := evalLocal parent locals (locals.length + 1) [] acc.1 name
    evalAllLocalsFrom parent locals names (r.1, acc.2 ++ r.2)

/-- `Processor.eval`: evaluate all locals in dependency order.  `order` is
the iteration order of the Go map range (an arbitrary permutation of the
local names). -/
def evalAllLocals (parent : EvalCtx) (locals : List (String × ExprDeps))
    (order : List String) : LState × List Diag :=
  evalAllLocalsFrom parent locals order
    ({ vars := [], remaining := locals.map Prod.fst, log := [] }, [])

/-- `Processor.evaluate`: duplicate and shadowing checks over the collected
attributes, then dependency computation and evaluation in a fresh child
context. -/
def collectLocals (ctx : EvalCtx) (attrsList : List (List (String × LExpr))) :
    Except (List Diag) (List (String × LExpr)) :=
  attrsList.foldlM (fun acc attrs =>
    attrs.foldlM (fun (acc : List (String × LExpr)) nv =>
      if (lookupField acc nv.1).isSome then
        Except.error [errDiag ("local \x22" ++ nv.1 ++ "\x22: duplicate local declaration")]
      else if hasVariable ctx nv.1 then
        Except.error [errDiag "attempt to shadow variable"]
      else
        Except.ok (acc ++ [nv])) acc) []

/-- `Processor.evaluate` / `Process`: the full locals pipeline.  Returns the
child context holding the locals (or the unchanged context when no locals
are present) together with accumulated diagnostics; `none` models the `nil`
context returned on a fatal error. -/
def localsEvaluate (ctx : EvalCtx) (attrsList : List (List (String × LExpr)))
    (order : List String) : Option EvalCtx × List Diag :=
  match collectLocals ctx attrsList with
  | .error ds => (none, ds)
  | .ok locals =>
    if locals.isEmpty then (some ctx, [])
    else
      match computeDeps ctx locals with
      | .error ds => (none, ds)
      | .ok withDeps =>
        let r := evalAllLocals ctx withDeps order
        (some (.child r.1.vars ctx), r.2)

/-! ### Dependency graphs, cycles, and evaluation-order facts -/

/-- The names of the locals (keys of the Go map). -/
def keysOf (locals : List (String × ExprDeps)) : List String :=
  locals.map Prod.fst

/-- The recorded dependencies of a local. -/
def depsOf (locals : List (String × ExprDeps)) (n : String) : List String :=
  match lookupField locals n with
  | some i => i.deps
  | none => []

/-- A list of names each of which depends on the next. -/
inductive DepChain (locals : List (String × ExprDeps)) : List String → Prop
  | nil : DepChain locals []
  | single (a : String) : DepChain locals [a]
  | cons (a b : String) (rest : List String) :
      b ∈ depsOf locals a → DepChain locals (b :: rest) → DepChain locals (a :: b :: rest)

/-- A genuine dependency cycle: a chain of length at least two that starts
and ends at the same name. -/
def IsCycleList (locals : List (String × ExprDeps)) : List String → Prop
  | [] => False
  | c :: rest =>
    rest ≠ [] ∧ DepChain locals (c :: rest) ∧ (c :: rest).getLast (by simp) = c

/-- The dependency graph contains a cycle. -/
def HasCycle (locals : List (String × ExprDeps)) : Prop :=
  ∃ l, IsCycleList locals l

/-- The log respects dependencies: wherever a name appears, all its
dependencies appear earlier. -/
def TopoLog (log : List String) (locals : List (String × ExprDeps)) : Prop :=
  ∀ l1 n l2, log = l1 ++ n :: l2 → ∀ d ∈ depsOf locals n, d ∈ l1

/-- All recorded dependencies point back into the locals map (guaranteed by
`computeDeps`). -/
def DepsClosed (locals : List (String × ExprDeps)) : Prop :=
  ∀ p ∈ locals, ∀ d ∈ p.2.deps, d ∈ keysOf locals

theorem lookupField_some_mem {α : Type} {fs : List (String × α)} {k : String} {v : α}
    (h : lookupField fs k = some v) : (k, v) ∈ fs := by
  induction fs with
  | nil => simp [lookupField] at h
  | cons f fs ih =>
    by_cases hk : f.1 = k
    · simp only [lookupField, hk, if_pos] at h
      cases h
      have hf : (k, f.2) = f := by
        cases f
        simp_all
      rw [hf]
      exact List.mem_cons_self _ _
    · simp only [lookupField, hk, if_false] at h
      exact List.mem_cons_of_mem _ (ih h)

theorem lookupField_isSome_of_mem_keys {α : Type} {fs : List (String × α)} {k : String}
    (h : k ∈ fs.map Prod.fst) : (lookupField fs k).isSome := by
  induction fs with
  | nil => simp at h
  | cons f fs ih =>
    by_cases hk : f.1 = k
    · simp [lookupField, hk]
    · simp only [List.map_cons, List.mem_cons] at h
      rcases h with h | h
    -- impossible head case or tail case
      · exact absurd h.symm hk
      · simp [lookupField, hk, ih h]

theorem mem_keys_of_lookupField_some {α : Type} {fs : List (String × α)} {k : String} {v : α}
    (h : lookupField fs k = some v) : k ∈ fs.map Prod.fst := by
  have := lookupField_some_mem h
  exact List.mem_map_of_mem Prod.fst this

theorem cycleSuffix_none_not_mem (path : List String) (name : String)
    (h : cycleSuffix path name = none) : name ∉ path := by
  induction path with
  | nil => simp
  | cons v rest ih =>
    by_cases hv : v = name
    · simp [cycleSuffix, hv] at h
    · simp only [cycleSuffix, hv, if_false] at h
      simp only [List.mem_cons, not_or]
      exact ⟨fun hc => hv hc.symm, ih h⟩

theorem cycleSuffix_some (path : List String) (name : String) (s : List String)
    (h : cycleSuffix path name = some s) :
    (∃ t, s = name :: t) ∧ s <:+ path := by
  induction path with
  | nil => simp [cycleSuffix] at h
  | cons v rest ih =>
    by_cases hv : v = name
    · subst hv
      simp only [cycleSuffix, if_pos] at h
      cases h
      exact ⟨⟨rest, rfl⟩, List.suffix_refl _⟩
    · simp only [cycleSuffix, hv, if_false] at h
      obtain ⟨ht, hs⟩ := ih h
      exact ⟨ht, hs.trans (List.suffix_cons v rest)⟩

theorem DepChain.tail_chain {locals : List (String × ExprDeps)} {a : String} {l : List String}
    (h : DepChain locals (a :: l)) : DepChain locals l := by
  cases h with
  | single _ => exact DepChain.nil
  | cons _ b rest hb hc => exact hc

theorem DepChain_suffix {locals : List (String × ExprDeps)} {l t : List String}
    (h : DepChain locals l) (hs : t <:+ l) : DepChain locals t := by
  obtain ⟨s, rfl⟩ := hs
  induction s with
  | nil => simpa using h
  | cons x s ih => exact ih (DepChain.tail_chain (by simpa using h))

theorem DepChain_snoc {locals : List (String × ExprDeps)} :
    ∀ (l : List String) (a b : String),
      DepChain locals (l ++ [a]) → b ∈ depsOf locals a → DepChain locals (l ++ [a, b]) := by
  intro l
  induction l with
  | nil =>
    intro a b _ hb
    exact DepChain.cons a b [] hb (DepChain.single b)
  | cons x l ih =>
    intro a b hchain hb
    cases l with
    | nil =>
      cases hchain with
      | cons _ _ _ hx hc =>
        exact DepChain.cons x a [b] hx (DepChain.cons a b [] hb (DepChain.single b))
    | cons y l' =>
      cases hchain with
      | cons _ _ _ hx hc =>
        have := ih a b hc hb
        exact DepChain.cons x y (l' ++ [a, b]) hx this

theorem depsOf_mem_keys {locals : List (String × ExprDeps)} {a b : String}
    (hb : b ∈ depsOf locals a) : a ∈ keysOf locals := by
  unfold depsOf at hb
  cases hlk : lookupField locals a with
  | none => rw [hlk] at hb; simp at hb
  | some i => exact mem_keys_of_lookupField_some hlk

theorem depsOf_subset_keys {locals : List (String × ExprDeps)} (hclosed : DepsClosed locals)
    {a b : String} (hb : b ∈ depsOf locals a) : b ∈ keysOf locals := by
  unfold depsOf at hb
  cases hlk : lookupField locals a with
  | none => rw [hlk] at hb; simp at hb
  | some i =>
    rw [hlk] at hb
    exact hclosed (a, i) (lookupField_some_mem hlk) b hb

theorem topo_indexOf_lt {log : List String} {locals : List (String × ExprDeps)}
    (htopo : TopoLog log locals) (hnd : log.Nodup) {a b : String}
    (hb : b ∈ depsOf locals a) (ha : a ∈ log) :
    log.indexOf b < log.indexOf a := by
  obtain ⟨l1, l2, rfl⟩ := List.append_of_mem ha
  have hbl1 : b ∈ l1 := htopo l1 a l2 rfl b hb
  have hal1 : a ∉ l1 := by
    have hdisj := List.disjoint_of_nodup_append hnd
    intro hmem
    exact hdisj hmem (List.mem_cons_self a l2)
  have h1 : (l1 ++ a :: l2).indexOf b = l1.indexOf b := List.indexOf_append_of_mem hbl1
  have h2 : (l1 ++ a :: l2).indexOf a = l1.length + (a :: l2).indexOf a :=
    List.indexOf_append_of_not_mem hal1
  rw [h1, h2, List.indexOf_cons_self]
  have := List.indexOf_lt_length.2 hbl1
  omega

theorem chain_last_lt {log : List String} {locals : List (String × ExprDeps)}
    (htopo : TopoLog log locals) (hnd : log.Nodup) :
    ∀ (rest : List String) (a : String),
      DepChain locals (a :: rest) → rest ≠ [] → (∀ n ∈ a :: rest, n ∈ log) →
      log.indexOf ((a :: rest).getLast (by simp)) < log.indexOf a := by
  intro rest
  induction rest with
  | nil => intro a _ hne _; exact absurd rfl hne
  | cons b rest' ih =>
    intro a hchain _ hmem
    cases hchain with
    | cons _ _ _ hedge hchain' =>
      cases rest' with
      | nil =>
        simp only [List.getLast]
        exact topo_indexOf_lt htopo hnd hedge (hmem a (by simp))
      | cons c rest'' =>
        have hlt1 : log.indexOf ((b :: c :: rest'').getLast (by simp)) < log.indexOf b :=
          ih b hchain' (by simp) (fun n hn => hmem n (List.mem_cons_of_mem a hn))
        have hlt2 : log.indexOf b < log.indexOf a :=
          topo_indexOf_lt htopo hnd hedge (hmem a (by simp))
        have hlast : (a :: b :: c :: rest'').getLast (by simp) =
            (b :: c :: rest'').getLast (by simp) := by
          rw [List.getLast_cons]
        rw [hlast]
        omega

theorem chain_mem_keys {locals : List (String × ExprDeps)} (hclosed : DepsClosed locals) :
    ∀ (rest : List String) (a : String),
      DepChain locals (a :: rest) → rest ≠ [] → ∀ n ∈ a :: rest, n ∈ keysOf locals := by
  intro rest
  induction rest with
  | nil => intro a _ hne; exact absurd rfl hne
  | cons b rest' ih =>
    intro a hchain _ n hn
    cases hchain with
    | cons _ _ _ hedge hchain' =>
      rcases List.mem_cons.mp hn with rfl | hn'
      · exact depsOf_mem_keys hedge
      · cases rest' with
        | nil =>
          rcases List.mem_cons.mp hn' with rfl | hn''
          · exact depsOf_subset_keys hclosed hedge
          · simp at hn''
        | cons c rest'' =>
          exact ih b hchain' (by simp) n hn'

/-- A complete dependency-respecting evaluation log rules out cycles. -/
theorem topo_no_cycle {log : List String} {locals : List (String × ExprDeps)}
    (htopo : TopoLog log locals) (hnd : log.Nodup)
    (hcomplete : ∀ n ∈ keysOf locals, n ∈ log) (hclosed : DepsClosed locals) :
    ¬ HasCycle locals := by
  rintro ⟨l, hcyc⟩
  cases l with
  | nil => exact hcyc
  | cons c rest =>
    obtain ⟨hne, hchain, hlast⟩ := hcyc
    have hmem : ∀ n ∈ c :: rest, n ∈ log := fun n hn =>
      hcomplete n (chain_mem_keys hclosed rest c hchain hne n hn)
    have := chain_last_lt htopo hnd rest c hchain hne hmem
    rw [hlast] at this
    omega

theorem append_singleton_eq_split {α : Type} :
    ∀ {l l1 l2 : List α} {a n : α}, l ++ [a] = l1 ++ n :: l2 →
      (l1 = l ∧ n = a ∧ l2 = []) ∨ (∃ l2', l2 = l2' ++ [a] ∧ l = l1 ++ n :: l2') := by
  intro l l1
  induction l1 generalizing l with
  | nil =>
    intro l2 a n h
    cases l with
    | nil =>
      simp at h
      exact Or.inl ⟨rfl, h.1.symm, h.2⟩
    | cons x l' =>
      simp at h
      exact Or.inr ⟨l', h.2.symm, by simp [h.1]⟩
  | cons y l1' ih =>
    intro l2 a n h
    cases l with
    | nil =>
      simp at h
    | cons x l' =>
      simp only [List.cons_append, List.cons.injEq] at h
      rcases ih h.2 with ⟨h1, h2, h3⟩ | ⟨l2', h1, h2⟩
      · exact Or.inl ⟨by simp [h.1, h1], h2, h3⟩
      · exact Or.inr ⟨l2', h1, by simp [h.1, h2]⟩

/-- The invariants of the locals-evaluation state that hold as long as no
error has been produced: every name removed from `remaining` has been
logged, the log respects dependencies, is duplicate-free, disjoint from
`remaining`, and contains only local names. -/
structure LGood (locals : List (String × ExprDeps)) (st : LState) : Prop where
  processed : ∀ n ∈ keysOf locals, n ∉ st.remaining → n ∈ st.log
  topo : TopoLog st.log locals
  log_nodup : st.log.Nodup
  log_excl : ∀ n ∈ st.log, n ∉ st.remaining
  log_keys : ∀ n ∈ st.log, n ∈ keysOf locals

/-- The postcondition of one `evalLocal` call. -/
def LStepOk (locals : List (String × ExprDeps)) (path : List String) (st : LState)
    (name : String) (r : LState × List Diag) : Prop :=
  List.Sublist r.1.remaining st.remaining ∧
  (∀ p ∈ path, p ∈ r.1.remaining) ∧
  (∃ suf, r.1.log = st.log ++ suf) ∧
  (∀ d ∈ r.2, d.severity = Severity.err →
    ∃ l, IsCycleList locals l ∧ d.summary = renderCycle l) ∧
  (LGood locals st → hasErrors r.2 = false → LGood locals r.1) ∧
  (hasErrors r.2 = false → name ∉ r.1.remaining)

theorem severity_of_mem_downgrade {ds : List Diag} {d : Diag}
    (h : d ∈ downgradeDiags ds) : d.severity ≠ Severity.err := by
  intro hs
  have := hasErrors_downgradeDiags ds
  simp only [hasErrors, List.any_eq_false] at this
  have := this d h
  simp [hs] at this

theorem hasErrors_eq_false_iff {ds : List Diag} :
    hasErrors ds = false ↔ ∀ d ∈ ds, d.severity ≠ Severity.err := by
  simp only [hasErrors, List.any_eq_false]
  constructor
  · intro h d hd hs
    have := h d hd
    simp [hs] at this
  · intro h d hd
    have := h d hd
    simpa using this

theorem evalDepsWith_cons_pos (step : LState → String → LState × List Diag)
    (acc : LState × List Diag) (dep : String) (deps : List String)
    (h : dep ∈ acc.1.remaining) :
    evalDepsWith step acc (dep :: deps) =
      evalDepsWith step ((step acc.1 dep).1, acc.2 ++ (step acc.1 dep).2) deps := by
  simp only [evalDepsWith, if_pos h]

theorem evalDepsWith_cons_neg (step : LState → String → LState × List Diag)
    (acc : LState × List Diag) (dep : String) (deps : List String)
    (h : dep ∉ acc.1.remaining) :
    evalDepsWith step acc (dep :: deps) = evalDepsWith step acc deps := by
  simp only [evalDepsWith, if_neg h]

/-- The central specification of `evalLocal`: the remaining set only
shrinks, names on the path survive, the log only grows, every error emitted
renders a genuine dependency cycle, the invariants are preserved in the
absence of errors, and an error-free call completes its target name. -/
theorem evalLocal_spec (parent : EvalCtx) (locals : List (String × ExprDeps))
    (hclosed : DepsClosed locals) :
    ∀ (fuel : Nat) (path : List String) (st : LState) (name : String),
      path.Nodup →
      (∀ p ∈ path, p ∈ st.remaining) →
      (∀ n ∈ st.remaining, n ∈ keysOf locals) →
      st.remaining.Nodup →
      DepChain locals (path ++ [name]) →
      (keysOf locals).length + 1 ≤ fuel + path.length →
      LStepOk locals path st name (evalLocal parent locals fuel path st name) := by
  intro fuel
  induction fuel with
  | zero =>
    intro path st name hpnd hpathrem hkeys _ _ hbound
    exfalso
    have hsub : path ⊆ keysOf locals := fun p hp => hkeys p (hpathrem p hp)
    have := (List.subperm_of_subset hpnd hsub).length_le
    omega
  | succ fuel ih =>
    intro path st name hpnd hpathrem hkeys hremnd hchain hbound
    show LStepOk locals path st name
      (evalLocalStep parent locals (evalLocal parent locals fuel) path st name)
    rw [evalLocalStep]
    by_cases hmem : name ∈ st.remaining
    · rw [if_pos hmem]
      cases hcs : cycleSuffix path name with
      | some s =>
        -- push failure: report the cycle, change nothing
        obtain ⟨⟨t, rfl⟩, hsuf⟩ := cycleSuffix_some path name s hcs
        simp only [pathPush, hcs]
        refine ⟨List.Sublist.refl _, hpathrem, ⟨[], by simp⟩, ?_, ?_, ?_⟩
        · intro d hd _
          simp only [List.mem_singleton] at hd
          subst hd
          refine ⟨(name :: t) ++ [name], ⟨by simp, ?_, ?_⟩, rfl⟩
          · refine DepChain_suffix hchain ?_
            obtain ⟨u, hu⟩ := hsuf
            exact ⟨u, by rw [← hu]; simp⟩
          · simpa using List.getLast_append_singleton (l := name :: t) (a := name)
        · intro _ hne
          simp [hasErrors, errDiag] at hne
        · intro hne
          simp [hasErrors, errDiag] at hne
      | none =>
        have hnotmem : name ∉ path := cycleSuffix_none_not_mem path name hcs
        have hpnd' : (path ++ [name]).Nodup := by simp [List.nodup_append, hpnd, hnotmem]
        simp only [pathPush, hcs]
        cases hlk : lookupField locals name with
        | none =>
          exfalso
          have := lookupField_isSome_of_mem_keys (hkeys name hmem)
          rw [hlk] at this
          simp at this
        | some info =>
          -- the dependency fold
          have hdepsOf : depsOf locals name = info.deps := by simp [depsOf, hlk]
          have aux : ∀ (deps : List String), (∀ d ∈ deps, d ∈ depsOf locals name) →
              ∀ (acc : LState × List Diag),
              (∀ p ∈ path ++ [name], p ∈ acc.1.remaining) →
              List.Sublist acc.1.remaining st.remaining →
              (∃ suf, acc.1.log = st.log ++ suf) →
              (∀ d ∈ acc.2, d.severity = Severity.err →
                ∃ l, IsCycleList locals l ∧ d.summary = renderCycle l) →
              (LGood locals st → hasErrors acc.2 = false → LGood locals acc.1) →
              (let r := evalDepsWith (evalLocal parent locals fuel (path ++ [name])) acc deps
               List.Sublist r.1.remaining acc.1.remaining ∧
               (∀ p ∈ path ++ [name], p ∈ r.1.remaining) ∧
               (∃ suf, r.1.log = acc.1.log ++ suf) ∧
               (∀ d ∈ r.2, d.severity = Severity.err →
                 ∃ l, IsCycleList locals l ∧ d.summary = renderCycle l) ∧
               (∃ suf, r.2 = acc.2 ++ suf) ∧
               (LGood locals st → hasErrors r.2 = false → LGood locals r.1) ∧
               (hasErrors r.2 = false → ∀ dep ∈ deps, dep ∉ r.1.remaining)) := by
            intro deps
            induction deps with
            | nil =>
              intro _ acc hA1 hA2 hA3 hA4 hA5
              simp only [evalDepsWith]
              exact ⟨List.Sublist.refl _, hA1, ⟨[], by simp⟩, hA4, ⟨[], by simp⟩, hA5,
                fun _ d hd => absurd hd (by simp)⟩
            | cons d ds ihd =>
              intro hdeps acc hA1 hA2 hA3 hA4 hA5
              by_cases hdmem : d ∈ acc.1.remaining
              · simp only [evalDepsWith_cons_pos _ _ _ _ hdmem]
                have hsubstep := ih (path ++ [name]) acc.1 d hpnd' hA1
                  (fun n hn => hkeys n (hA2.subset hn))
                  (hA2.nodup hremnd)
                  (by simpa using DepChain_snoc path name d hchain (hdeps d (by simp)))
                  (by simp only [List.length_append, List.length_singleton]; omega)
                obtain ⟨hS1, hS2, hS3, hS4, hS5, hS6⟩ := hsubstep
                set r1 := evalLocal parent locals fuel (path ++ [name]) acc.1 d with hr1
                have hstep := ihd (fun d' hd' => hdeps d' (by simp [hd']))
                  (r1.1, acc.2 ++ r1.2)
                  hS2 (hS1.trans hA2)
                  (by obtain ⟨s1, hs1⟩ := hA3; obtain ⟨s2, hs2⟩ := hS3
                      exact ⟨s1 ++ s2, by simp [hs2, hs1]⟩)
                  (by intro dd hdd hsev
                      rcases List.mem_append.mp hdd with h | h
                      · exact hA4 dd h hsev
                      · exact hS4 dd h hsev)
                  (by intro hgood hne
                      rw [hasErrors_append] at hne
                      simp only [Bool.or_eq_false_iff] at hne
                      exact hS5 (hA5 hgood hne.1) hne.2)
                obtain ⟨hP1, hP2, hP3, hP4, hP5, hP6, hP7⟩ := hstep
                refine ⟨hP1.trans hS1, hP2, ?_, hP4, ?_, hP6, ?_⟩
                · obtain ⟨s2, hs2⟩ := hS3; obtain ⟨s3, hs3⟩ := hP3
                  exact ⟨s2 ++ s3, by simp [hs3, hs2]⟩
                · obtain ⟨s3, hs3⟩ := hP5
                  exact ⟨r1.2 ++ s3, by simp [hs3]⟩
                · intro hne dep hdep
                  rcases List.mem_cons.mp hdep with rfl | hdep'
                  · obtain ⟨s3, hs3⟩ := hP5
                    rw [hs3, hasErrors_append, hasErrors_append] at hne
                    simp only [Bool.or_eq_false_iff] at hne
                    have : dep ∉ r1.1.remaining := hS6 hne.1.2
                    exact fun hc => this (hP1.subset hc)
                  · exact hP7 hne dep hdep'
              · simp only [evalDepsWith_cons_neg _ _ _ _ hdmem]
                have hstep := ihd (fun d' hd' => hdeps d' (by simp [hd'])) acc hA1 hA2 hA3 hA4 hA5
                obtain ⟨hP1, hP2, hP3, hP4, hP5, hP6, hP7⟩ := hstep
                refine ⟨hP1, hP2, hP3, hP4, hP5, hP6, ?_⟩
                intro hne dep hdep
                rcases List.mem_cons.mp hdep with rfl | hdep'
                · exact fun hc => hdmem (hP1.subset hc)
                · exact hP7 hne dep hdep'
          have hstart := aux info.deps (by rw [hdepsOf]; exact fun d hd => hd) (st, [])
            (by intro p hp
                rcases List.mem_append.mp hp with h | h
                · exact hpathrem p h
                · simp at h; exact h ▸ hmem)
            (List.Sublist.refl _) ⟨[], by simp⟩ (by intro d hd; simp at hd)
            (fun hgood _ => hgood)
          set r1 := evalDepsWith (evalLocal parent locals fuel (path ++ [name]))
            (st, []) info.deps with hr1def
          obtain ⟨hF1, hF2, hF3, hF4, hF5, hF6, hF7⟩ := hstart
          have hname_rem : name ∈ r1.1.remaining := hF2 name (by simp)
          have hr1nd : r1.1.remaining.Nodup := hF1.nodup hremnd
          by_cases herr : hasErrors r1.2
          · simp only [herr, if_pos]
            refine ⟨(List.erase_sublist _ _).trans hF1, ?_, hF3, hF4, ?_, ?_⟩
            · intro p hp
              have hpne : p ≠ name := fun hc => hnotmem (hc ▸ hp)
              exact (List.mem_erase_of_ne hpne).mpr (hF2 p (by simp [hp]))
            · intro _ hne
              rw [hne] at herr
              simp at herr
            · intro hne
              rw [hne] at herr
              simp at herr
          · simp only [herr, Bool.false_eq_true, if_neg, not_false_iff]
            have hnoerr1 : hasErrors r1.2 = false := by simpa using herr
            refine ⟨(List.erase_sublist _ _).trans hF1, ?_, ?_, ?_, ?_, ?_⟩
            · intro p hp
              have hpne : p ≠ name := fun hc => hnotmem (hc ▸ hp)
              exact (List.mem_erase_of_ne hpne).mpr (hF2 p (by simp [hp]))
            · obtain ⟨suf, hsuf⟩ := hF3
              exact ⟨suf ++ [name], by rw [← hr1def]; simp [hsuf]⟩
            · intro d hd hsev
              rcases List.mem_append.mp hd with h | h
              · exact hF4 d h hsev
              · exact absurd hsev (severity_of_mem_downgrade h)
            · intro hgood hne
              have hgood1 : LGood locals r1.1 := hF6 hgood hnoerr1
              have hnamekeys : name ∈ keysOf locals := hkeys name hmem
              have hnamenotlog : name ∉ r1.1.log := fun hc => hgood1.log_excl name hc hname_rem
              refine ⟨?_, ?_, ?_, ?_, ?_⟩
              · intro n hn hnrem
                simp only [List.mem_append, List.mem_singleton]
                by_cases hne' : n = name
                · exact Or.inr hne'
                · left
                  refine hgood1.processed n hn ?_
                  intro hc
                  exact hnrem ((List.mem_erase_of_ne hne').mpr hc)
              · intro l1 n l2 hsplit dd hdd
                rcases append_singleton_eq_split hsplit with ⟨hl1, hn, _⟩ | ⟨l2', _, hlog⟩
                · rw [hn] at hdd
                  rw [hl1]
                  have hdd' : dd ∈ info.deps := by rw [← hdepsOf]; exact hdd
                  have hddrem : dd ∉ r1.1.remaining := hF7 hnoerr1 dd hdd'
                  have hddkeys : dd ∈ keysOf locals :=
                    hclosed (name, info) (lookupField_some_mem hlk) dd hdd'
                  exact hgood1.processed dd hddkeys hddrem
                · exact hgood1.topo l1 n l2' hlog dd hdd
              · simp [List.nodup_append, hgood1.log_nodup, hnamenotlog]
              · intro n hn
                rcases List.mem_append.mp hn with h | h
                · intro hc
                  exact hgood1.log_excl n h ((List.erase_sublist _ _).subset hc)
                · simp only [List.mem_singleton] at h
                  subst h
                  exact hr1nd.not_mem_erase
              · intro n hn
                rcases List.mem_append.mp hn with h | h
                · exact hgood1.log_keys n h
                · simp only [List.mem_singleton] at h
                  exact h ▸ hnamekeys
            · intro _
              exact hr1nd.not_mem_erase
    · rw [if_neg hmem]
      exact ⟨List.Sublist.refl _, hpathrem, ⟨[], by simp⟩,
        fun d hd => absurd hd (by simp), fun hgood _ => hgood, fun _ => hmem⟩

/-! ### Top-level locals evaluation: cycle detection and error downgrading -/

theorem mentions_append_left {msg v : String} (pre : String) (h : mentions msg v) :
    mentions (pre ++ msg) v := by
  obtain ⟨s1, s2, rfl⟩ := h
  exact ⟨pre ++ s1, s2, by simp [String.append_assoc]⟩

theorem arrowJoin_mentions : ∀ (l : List String), ∀ v ∈ l, mentions (arrowJoin l) v := by
  intro l
  induction l with
  | nil => simp
  | cons x rest ih =>
    intro v hv
    cases rest with
    | nil =>
      simp only [List.mem_singleton] at hv
      subst hv
      exact ⟨"", "", by simp [arrowJoin]⟩
    | cons y rest' =>
      rcases List.mem_cons.mp hv with rfl | hv'
      · exact ⟨"", " \u2192 " ++ arrowJoin (y :: rest'), by simp [arrowJoin, String.append_assoc]⟩
      · have := ih v hv'
        have h2 := mentions_append_left (x ++ " \u2192 ") this
        obtain ⟨s1, s2, hs⟩ := h2
        exact ⟨s1, s2, by simp only [arrowJoin]; exact hs⟩

theorem renderCycle_mentions {l : List String} {v : String} (hv : v ∈ l) :
    mentions (renderCycle l) v :=
  mentions_append_left _ (arrowJoin_mentions l v hv)

theorem mem_data_of_mentions {msg part : String} (h : mentions msg part) :
    ∀ ch ∈ part.data, ch ∈ msg.data := by
  obtain ⟨s1, s2, rfl⟩ := h
  intro ch hch
  simp only [String.data_append, List.mem_append]
  exact Or.inl (Or.inr hch)

theorem exists_err_of_hasErrors {ds : List Diag} (h : hasErrors ds = true) :
    ∃ d ∈ ds, d.severity = Severity.err := by
  simpa [hasErrors] using h

theorem LGood_initial (locals : List (String × ExprDeps)) :
    LGood locals { vars := [], remaining := locals.map Prod.fst, log := [] } :=
  ⟨fun n hn hnrem => absurd hn hnrem,
   fun l1 n l2 h => absurd h (by simp),
   by simp, by simp, by simp⟩

/-- The top-level loop inherits the per-call guarantees of `evalLocal`:
the remaining set shrinks, every fatal diagnostic renders a genuine cycle,
the invariants survive error-free prefixes, and error-free processing
removes every visited name. -/
theorem evalAllLocalsFrom_spec (parent : EvalCtx) (locals : List (String × ExprDeps))
    (hclosed : DepsClosed locals) (hkeysnd : (keysOf locals).Nodup) :
    ∀ (names : List String) (acc : LState × List Diag),
      List.Sublist acc.1.remaining (keysOf locals) →
      (∀ d ∈ acc.2, d.severity = Severity.err →
        ∃ l, IsCycleList locals l ∧ d.summary = renderCycle l) →
      (hasErrors acc.2 = false → LGood locals acc.1) →
      List.Sublist (evalAllLocalsFrom parent locals names acc).1.remaining acc.1.remaining ∧
      (∀ d ∈ (evalAllLocalsFrom parent locals names acc).2, d.severity = Severity.err →
        ∃ l, IsCycleList locals l ∧ d.summary = renderCycle l) ∧
      (∃ suf, (evalAllLocalsFrom parent locals names acc).2 = acc.2 ++ suf) ∧
      (hasErrors (evalAllLocalsFrom parent locals names acc).2 = false →
        LGood locals (evalAllLocalsFrom parent locals names acc).1) ∧
      (hasErrors (evalAllLocalsFrom parent locals names acc).2 = false →
        ∀ n ∈ names, n ∉ (evalAllLocalsFrom parent locals names acc).1.remaining) := by
  intro names
  induction names with
  | nil =>
    intro acc hA1 hA2 hA3
    simp only [evalAllLocalsFrom]
    exact ⟨List.Sublist.refl _, hA2, ⟨[], by simp⟩, hA3, fun _ n hn => absurd hn (by simp)⟩
  | cons nm names ihn =>
    intro acc hA1 hA2 hA3
    simp only [evalAllLocalsFrom]
    have hstep := evalLocal_spec parent locals hclosed (locals.length + 1) [] acc.1 nm
      (by simp) (by simp) (fun n hn => hA1.subset hn) (hA1.nodup hkeysnd)
      (DepChain.single nm)
      (by simp [keysOf])
    obtain ⟨hS1, hS2, hS3, hS4, hS5, hS6⟩ := hstep
    set r1 := evalLocal parent locals (locals.length + 1) [] acc.1 nm with hr1
    have hrec := ihn (r1.1, acc.2 ++ r1.2) (hS1.trans hA1)
      (by intro d hd hsev
          rcases List.mem_append.mp hd with h | h
          · exact hA2 d h hsev
          · exact hS4 d h hsev)
      (by intro hne
          rw [hasErrors_append] at hne
          simp only [Bool.or_eq_false_iff] at hne
          exact hS5 (hA3 hne.1) hne.2)
    obtain ⟨hP1, hP2, hP3, hP4, hP5⟩ := hrec
    refine ⟨hP1.trans hS1, hP2, ?_, hP4, ?_⟩
    · obtain ⟨s3, hs3⟩ := hP3
      exact ⟨r1.2 ++ s3, by simp [hs3]⟩
    · intro hne n hn
      rcases List.mem_cons.mp hn with rfl | hn'
      · obtain ⟨s3, hs3⟩ := hP3
        rw [hs3, hasErrors_append, hasErrors_append] at hne
        simp only [Bool.or_eq_false_iff] at hne
        have : n ∉ r1.1.remaining := hS6 hne.1.2
        exact fun hc => this (hP1.subset hc)
      · exact hP5 hne n hn'

/-- C8 (amended): on a locals map with unique names whose recorded
dependencies all point at locals (as `Processor.evaluate` guarantees), a
cyclic dependency graph always makes evaluation fail, every fatal
diagnostic renders some genuine cycle of the graph — `cycle found:` followed
by the arrow-joined names of that cycle, each of which the message mentions —
and an acyclic graph yields no fatal diagnostic, with every local evaluated
after all of its dependencies.  (The reported cycle is the one on the
walker's path stack; it need not pass through every name of every cycle in
the graph.) -/
theorem claim_C8_cycle_detection (parent : EvalCtx) (locals : List (String × ExprDeps))
    (order : List String) (hclosed : DepsClosed locals)
    (hnd : (keysOf locals).Nodup) (hcover : ∀ n ∈ keysOf locals, n ∈ order) :
    (HasCycle locals → hasErrors (evalAllLocals parent locals order).2 = true) ∧
    (∀ d ∈ (evalAllLocals parent locals order).2, d.severity = Severity.err →
      ∃ l, IsCycleList locals l ∧ d.summary = renderCycle l ∧
        ∀ v ∈ l, mentions d.summary v) ∧
    (¬ HasCycle locals →
      hasErrors (evalAllLocals parent locals order).2 = false ∧
      TopoLog (evalAllLocals parent locals order).1.log locals ∧
      ∀ n ∈ keysOf locals, n ∈ (evalAllLocals parent locals order).1.log) := by
  have hfold := evalAllLocalsFrom_spec parent locals hclosed hnd order
    ({ vars := [], remaining := locals.map Prod.fst, log := [] }, [])
    (List.Sublist.refl _)
    (by intro d hd; simp at hd)
    (fun _ => LGood_initial locals)
  obtain ⟨hF1, hF2, hF3, hF4, hF5⟩ := hfold
  have hcomplete : hasErrors (evalAllLocals parent locals order).2 = false →
      ∀ n ∈ keysOf locals, n ∈ (evalAllLocals parent locals order).1.log := by
    intro hne n hn
    exact (hF4 hne).processed n hn (hF5 hne n (hcover n hn))
  refine ⟨?_, ?_, ?_⟩
  · intro hcyc
    by_cases herr : hasErrors (evalAllLocals parent locals order).2 = true
    · exact herr
    · exfalso
      rw [Bool.not_eq_true] at herr
      exact topo_no_cycle (hF4 herr).topo (hF4 herr).log_nodup (hcomplete herr) hclosed hcyc
  · intro d hd hsev
    obtain ⟨l, hl, hsum⟩ := hF2 d hd hsev
    exact ⟨l, hl, hsum, fun v hv => hsum ▸ renderCycle_mentions hv⟩
  · intro hnc
    have hne : hasErrors (evalAllLocals parent locals order).2 = false := by
      by_contra h
      rw [Bool.not_eq_false] at h
      obtain ⟨d, hd, hsev⟩ := exists_err_of_hasErrors h
      obtain ⟨l, hl, -⟩ := hF2 d hd hsev
      exact hnc ⟨l, hl⟩
    exact ⟨hne, (hF4 hne).topo, hcomplete hne⟩

/-- A dependency graph with two distinct cycles through `a` and `c`; the
walker reaches `c` via `y` first, so the reported cycle never names `b`. -/
def c8locals : List (String × ExprDeps) :=
  [("a", ⟨⟨[], fun _ => (Value.vNull, [])⟩, ["y", "b"]⟩),
   ("y", ⟨⟨[], fun _ => (Value.vNull, [])⟩, ["c"]⟩),
   ("b", ⟨⟨[], fun _ => (Value.vNull, [])⟩, ["c"]⟩),
   ("c", ⟨⟨[], fun _ => (Value.vNull, [])⟩, ["a"]⟩)]

/-- C8 counterexample: the dependency graph of `c8locals` contains the cycle
`a → b → c → a`, evaluation fails, but no diagnostic of the run mentions the
cycle member `b` — the single error reports the other cycle `a → y → c → a`.
So a cycle over v1 … vk does not guarantee an error naming every vi. -/
theorem claim_C8_counterexample :
    IsCycleList c8locals ["a", "b", "c", "a"] ∧
    hasErrors (evalAllLocals (.root []) c8locals ["a", "y", "b", "c"]).2 = true ∧
    ∀ d ∈ (evalAllLocals (.root []) c8locals ["a", "y", "b", "c"]).2,
      ¬ mentions d.summary "b" := by
  refine ⟨⟨by simp, ?_, by decide⟩, by decide, ?_⟩
  · exact DepChain.cons "a" "b" ["c", "a"] (by decide)
      (DepChain.cons "b" "c" ["a"] (by decide)
        (DepChain.cons "c" "a" [] (by decide) (DepChain.single "a")))
  · have hdl : (evalAllLocals (.root []) c8locals ["a", "y", "b", "c"]).2 =
        [⟨Severity.err, "cycle found: a \u2192 y \u2192 c \u2192 a", false⟩] := by decide
    intro d hd hm
    rw [hdl] at hd
    simp only [List.mem_singleton] at hd
    subst hd
    have hb := mem_data_of_mentions hm 'b' (by decide)
    exact absurd hb (by decide)

/-- The witness graph for C8: acyclic, `q` depends on `p`. -/
def w8locals : List (String × ExprDeps) :=
  [("p", ⟨⟨[], fun _ => (Value.vNull, [])⟩, []⟩),
   ("q", ⟨⟨[], fun _ => (Value.vNull, [])⟩, ["p"]⟩)]

theorem claim_C8_witness :
    (DepsClosed w8locals ∧ (keysOf w8locals).Nodup ∧
      ∀ n ∈ keysOf w8locals, n ∈ ["q", "p"]) ∧
    ((HasCycle w8locals →
        hasErrors (evalAllLocals (.root []) w8locals ["q", "p"]).2 = true) ∧
      (∀ d ∈ (evalAllLocals (.root []) w8locals ["q", "p"]).2,
          d.severity = Severity.err →
        ∃ l, IsCycleList w8locals l ∧ d.summary = renderCycle l ∧
          ∀ v ∈ l, mentions d.summary v) ∧
      (¬ HasCycle w8locals →
        hasErrors (evalAllLocals (.root []) w8locals ["q", "p"]).2 = false ∧
        TopoLog (evalAllLocals (.root []) w8locals ["q", "p"]).1.log w8locals ∧
        ∀ n ∈ keysOf w8locals,
          n ∈ (evalAllLocals (.root []) w8locals ["q", "p"]).1.log)) :=
  ⟨⟨by unfold DepsClosed; decide, by decide, by decide⟩,
   claim_C8_cycle_detection (.root []) w8locals ["q", "p"]
     (by unfold DepsClosed; decide) (by decide) (by decide)⟩

/-- C5 (amended): during the evaluation of a single local, every error the
expression engine returns — whether or not it stems from referencing an
unknown value — is downgraded to a warning and processing continues; the
only fatal diagnostics the evaluation phase can produce are the cycle
errors.  (The spec's restriction of the downgrade to unknown-related errors
does not match `DowngradeDiags`, which downgrades unconditionally.) -/
theorem claim_C5_downgrade_all (parent : EvalCtx) (locals : List (String × ExprDeps))
    (order : List String) (hclosed : DepsClosed locals)
    (hnd : (keysOf locals).Nodup) :
    ∀ d ∈ (evalAllLocals parent locals order).2, d.severity = Severity.err →
      ∃ l, IsCycleList locals l ∧ d.summary = renderCycle l := by
  have hfold := evalAllLocalsFrom_spec parent locals hclosed hnd order
    ({ vars := [], remaining := locals.map Prod.fst, log := [] }, [])
    (List.Sublist.refl _)
    (by intro d hd; simp at hd)
    (fun _ => LGood_initial locals)
  exact hfold.2.1

/-- A single local whose expression produces a fatal error that has nothing
to do with unknown values (`unknownRelated = false`). -/
def c5locals : List (String × ExprDeps) :=
  [("x", ⟨⟨[], fun _ => (Value.vNull, [⟨Severity.err, "division by zero", false⟩])⟩, []⟩)]

/-- C5 counterexample: an expression error that does not stem from an
unknown reference is still downgraded to a warning — the evaluation reports
no fatal error, the diagnostic survives only as a warning, and the local is
installed anyway; the error is not kept fatal as the claim requires. -/
theorem claim_C5_counterexample :
    (hasErrors (evalAllLocals (.root []) c5locals ["x"]).2 = false ∧
      (⟨Severity.warn, "division by zero", false⟩ : Diag) ∈
        (evalAllLocals (.root []) c5locals ["x"]).2 ∧
      (⟨Severity.err, "division by zero", false⟩ : Diag) ∉
        (evalAllLocals (.root []) c5locals ["x"]).2) ∧
    lookupField (evalAllLocals (.root []) c5locals ["x"]).1.vars "x" = some Value.vNull :=
  ⟨by decide, rfl⟩

theorem claim_C5_witness :
    (DepsClosed c5locals ∧ (keysOf c5locals).Nodup) ∧
    (∀ d ∈ (evalAllLocals (.root []) c5locals ["x"]).2, d.severity = Severity.err →
      ∃ l, IsCycleList c5locals l ∧ d.summary = renderCycle l) :=
  ⟨⟨by unfold DepsClosed; decide, by decide⟩,
   claim_C5_downgrade_all (.root []) c5locals ["x"] (by unfold DepsClosed; decide) (by decide)⟩

/-! ## The evaluator state machine (`eval.go`, `resources.go`, `requirements.go`) -/

/-- An HCL expression as the block processors see it: evaluation in a context
yields a value and diagnostics (the expression engine is external to this
repository). -/
structure HclExpr where
  eval : EvalCtx → Value × List Diag

/-- `fnv1.ResourceSelector`. -/
structure Selector where
  apiVersion : String
  kind : String
  matchName : Option String
  matchLabels : Option (List (String × String))
deriving DecidableEq, Repr

/-- A `DiscardItem` restricted to the fields the claims inspect: the
discard type, the reason, and the name. -/
structure DiscardItem where
  dtype : String
  reason : String
  name : String
deriving DecidableEq, Repr

/-- The mutable evaluator state the block processors manipulate
(`Evaluator.desiredResources`, `.ready`, `.compositeStatuses`, `.contexts`,
`.requirements`, `.discards`).  Resource bodies (protobuf structs) are kept
as their source values: `valueToStructWithAnnotations` is modelled as the
identity on the wholly known value. -/
structure EvalState where
  desiredResources : List (String × Value)
  ready : List (String × String)
  compositeStatuses : List Value
  contexts : List Value
  requirements : List (String × Option Selector)
  discards : List DiscardItem

/-- The evaluator's initial state. -/
def initState : EvalState := ⟨[], [], [], [], [], []⟩

/-- `Evaluator.discard`: append a discard item. -/
def EvalState.discard (st : EvalState) (d : DiscardItem) : EvalState :=
  { st with discards := st.discards ++ [d] }

/-- Rendering of the type tags for the condition type-error message. -/
def CtyType.render : CtyType → String
  | .boolT => "bool"
  | .numT => "number"
  | .strT => "string"
  | .tupT => "tuple"
  | .objT => "object"
  | .dynT => "dynamic"

/-- The result of a computation that can hit a Go `panic`. -/
inductive Outcome (α : Type) where
  | ok (a : α)
  | crashed (msg : String)

/-- Outcome of `evaluateCondition`.  `crashed` models the `cty` panic inside
`val.True()` when the value is not known. -/
inductive CondResult where
  | ok (b : Bool)
  | err
  | crashed
deriving DecidableEq, Repr

/-- `evaluateCondition` (eval.go lines 123-143): evaluate an optional
`condition` attribute; a false value records a discard with reason
`user-condition`.  The Go code checks `val.Type() != cty.Bool` and then calls
`val.True()`: an unknown value of type bool passes the type check and makes
`val.True()` panic. -/
def evaluateCondition (ctx : EvalCtx) (cond : Option HclExpr) (et : String)
    (name : String) (st : EvalState) : CondResult × EvalState × List Diag :=
  match cond with
  | none => (.ok true, st, [])
  | some e =>
    let r := e.eval ctx
    if hasErrors r.2 then (.err, st, r.2)
    else if r.1.typeOf != .boolT then
      (.err, st, r.2 ++ [errDiag ("got type " ++ r.1.typeOf.render ++ ", expected bool")])
    else
      match r.1 with
      | .vBool b =>
        if b then (.ok true, st, r.2)
        else (.ok false, st.discard ⟨et, "user-condition", name⟩, r.2)
      | _ => (.crashed, st, r.2)

/-- A `ready` block: its locals transformation and its `value` attribute. -/
structure ReadyBlock where
  localsF : EvalCtx → EvalCtx × List Diag
  value : Option HclExpr

/-- The sub-blocks of a resource.  The composite and context processors only
touch `compositeStatuses` / `contexts`; they are modelled down to that state
effect. -/
inductive SubBlock where
  | composite (e : HclExpr)
  | ready (rb : ReadyBlock)
  | contextB (e : HclExpr)

/-- The parsed content of a `resource` block (or of the template of a
`resources` block).  `bodyVars` holds the traversal outcomes of
`body.Expr.Variables()` in the resource context, as used by the
incomplete-value reporting of `addResource`. -/
structure ResourceContent where
  localsF : EvalCtx → EvalCtx × List Diag
  condition : Option HclExpr
  body : Option HclExpr
  bodyVars : List (String × Value)
  blocks : List SubBlock

/-- The keys of `fnv1.Ready_value`. -/
def readyValues : List String :=
  ["READY_FALSE", "READY_TRUE", "READY_UNSPECIFIED"]

/-- `processReady` (resources.go lines 381-431): evaluate the `value`
attribute; on an error or a not-wholly-known value record a
`resource-ready`/`incomplete` discard and downgrade; otherwise require a
valid readiness string and record it in the `ready` map. -/
def processReady (ctx : EvalCtx) (st : EvalState) (resourceName : String)
    (block : ReadyBlock) : EvalState × List Diag :=
  let l := block.localsF ctx
  if hasErrors l.2 then (st, l.2)
  else
    match block.value with
    | none =>
      (st, l.2 ++ [errDiag ("attribute \x22value\x22 not found in ready block for " ++
        resourceName)])
    | some attr =>
      let r := attr.eval l.1
      if hasErrors r.2 || !r.1.isWhollyKnown then
        (st.discard ⟨"resource-ready", "incomplete", resourceName⟩,
          l.2 ++ downgradeDiags r.2)
      else
        match r.1 with
        | .vStr s =>
          if readyValues.contains s then
            ({ st with ready := setField st.ready resourceName s }, l.2 ++ r.2)
          else
            (st, l.2 ++ r.2 ++ [errDiag ("attribute \x22value\x22 does not have a valid value in ready block for " ++ resourceName)])
        | _ =>
          (st, l.2 ++ r.2 ++ [errDiag ("attribute \x22value\x22 not a string in ready block for " ++ resourceName)])

/-- `processComposite`, abbreviated to its state effect: on success the
evaluated status is appended to `compositeStatuses`; `desiredResources` and
`ready` are never touched. -/
def processComposite (ctx : EvalCtx) (st : EvalState) (e : HclExpr) :
    EvalState × List Diag :=
  let r := e.eval ctx
  if hasErrors r.2 then (st, r.2)
  else ({ st with compositeStatuses := st.compositeStatuses ++ [r.1] }, r.2)

/-- `processContext`, abbreviated to its state effect: on success the
evaluated object is appended to `contexts`. -/
def processContext (ctx : EvalCtx) (st : EvalState) (e : HclExpr) :
    EvalState × List Diag :=
  let r := e.eval ctx
  if hasErrors r.2 then (st, r.2)
  else ({ st with contexts := st.contexts ++ [r.1] }, r.2)

/-- Dispatch on a sub-block of a resource. -/
def processSubBlock (ctx : EvalCtx) (st : EvalState) (resourceName : String) :
    SubBlock → EvalState × List Diag
  | .composite e => processComposite ctx st e
  | .ready rb => processReady ctx st resourceName rb
  | .contextB e => processContext ctx st e

/-- The sub-block loop at the end of `addResource`: stop at the first
sub-block whose diagnostics contain an error. -/
def processSubBlocks (ctx : EvalCtx) (resourceName : String) :
    EvalState → List Diag → List SubBlock → EvalState × List Diag
  | st, diags, [] => (st, diags)
  | st, diags, b :: bs =>
    let r := processSubBlock ctx st resourceName b
    if hasErrors r.2 then (r.1, diags ++ r.2)
    else processSubBlocks ctx resourceName r.1 (diags ++ r.2) bs

/-- The `incompleteVars` computation of `addResource` (resources.go lines
292-317): for each traversed variable of the body, the paths at which
unknown values sit, or the variable itself when no paths were found and the
value is not wholly known. -/
def incompleteVarsOf : List (String × Value) → List String
  | [] => []
  | p :: ps =>
    let unknownPaths := findUnknownPaths p.2
    (unknownPaths.map (fun path => p.1 ++ path) ++
      (if unknownPaths.isEmpty && !p.2.isWhollyKnown then [p.1] else [])) ++
      incompleteVarsOf ps

/-- `strings.Join(xs, ", ")`. -/
def commaJoin : List String → String
  | [] => ""
  | [x] => x
  | x :: y :: rest => x ++ ", " ++ commaJoin (y :: rest)

/-- `getObservedResource` / `getObservedConnection`: Go map read with the
zero value for a missing key. -/
def getObserved (m : List (String × Value)) (n : String) : Value :=
  match lookupField m n with
  | some v => v
  | none => .vNull

/-- The resource-specific context with the magic `self` variables (the
`createSelfChildContext` call of `addResource`). -/
def selfCtxOf (existing existingConn : List (String × Value)) (ctx : EvalCtx)
    (resourceName : String) : EvalCtx :=
  createSelfChildContext ctx
    [("name", .vStr resourceName),
     ("resource", getObserved existing resourceName),
     ("connection", getObserved existingConn resourceName)]

/-- `addResource` (resources.go lines 242-368).  `existing` is
`e.existingResourceMap`, `existingConn` is `e.existingConnectionMap`.
Observed-safety: when the body has errors or is not wholly known, the
outcome is a hard error if the name is observed, and a
`resource`/`incomplete` discard with downgraded diagnostics otherwise.
The conversion `valueToStructWithAnnotations` is modelled as the identity
on the wholly known value. -/
def addResource (existing existingConn : List (String × Value)) (ctx : EvalCtx)
    (st : EvalState) (resourceName : String) (content : ResourceContent) :
    Outcome (EvalState × List Diag) :=
  if (lookupField st.desiredResources resourceName).isSome then
    .ok (st, [errDiag ("duplicate resource \x22" ++ resourceName ++ "\x22")])
  else
    let ctx := selfCtxOf existing existingConn ctx resourceName
    let l := content.localsF ctx
    if hasErrors l.2 then .ok (st, l.2)
    else
      match content.body with
      | none =>
        .ok (st, [errDiag ("internal error: no body in content block for \x22" ++
          resourceName ++ "\x22")])
      | some body =>
        match evaluateCondition l.1 content.condition "resource" resourceName st with
        | (.crashed, _, _) => .crashed "cty: value is not known"
        | (.err, st, cds) =>
          .ok (st, l.2 ++ cds ++
            [errDiag ("unable to evaluate condition for resource " ++ resourceName)])
        | (.ok false, st, _) => .ok (st, [])
        | (.ok true, st, cds) =>
          let diags := l.2 ++ cds
          let r := body.eval l.1
          if hasErrors r.2 || !r.1.isWhollyKnown then
            let unknown := commaJoin (incompleteVarsOf content.bodyVars)
            if (lookupField existing resourceName).isSome then
              .ok (st, diags ++ r.2 ++
                [errDiag ("existing resource " ++ resourceName ++
                  " could not be evaluated, abort (unknown values: " ++ unknown ++ ")")])
            else
              .ok (st.discard ⟨"resource", "incomplete", resourceName⟩,
                diags ++ downgradeDiags r.2)
          else
            let diags := diags ++ r.2
            let st := { st with
              desiredResources := setField st.desiredResources resourceName r.1 }
            .ok (processSubBlocks l.1 resourceName st diags content.blocks)

/-- The parsed `select` block of a requirement (`selection`). -/
structure Selection where
  hasName : Bool
  apiVersion : HclExpr
  kind : HclExpr
  matchName : HclExpr
  matchLabels : HclExpr

/-- A parsed `requirement` block; `sel = none` models a structural error
from `checkRequirementBlock`. -/
structure RequirementBlock where
  localsF : EvalCtx → EvalCtx × List Diag
  condition : Option HclExpr
  sel : Option Selection

/-- The matchLabels loop of `selectionToSelector`: every label value must be
a string. -/
def labelsFromMap (requirementName : String) : List (String × Value) →
    Except Diag (List (String × String))
  | [] => .ok []
  | (k, v) :: rest =>
    match v with
    | .vStr s => (labelsFromMap requirementName rest).map (fun r => (k, s) :: r)
    | _ => .error (errDiag ("match label \x22" ++ k ++
        "\x22 in requirement selector was not an string"))

/-- The body of `selectionToSelector` (requirements.go lines 183-236):
`none` with error-free diagnostics means some value was not wholly known. -/
def selectionToSelectorCore (requirementName : String) (ctx : EvalCtx)
    (s : Selection) : Option Selector × List Diag :=
  let a := s.apiVersion.eval ctx
  if !a.1.isWhollyKnown then (none, downgradeDiags a.2)
  else
    match a.1 with
    | .vStr apiVersion =>
      let k := s.kind.eval ctx
      if !k.1.isWhollyKnown then (none, downgradeDiags k.2)
      else
        match k.1 with
        | .vStr kind =>
          if s.hasName then
            let n := s.matchName.eval ctx
            if !n.1.isWhollyKnown then (none, downgradeDiags n.2)
            else
              match n.1 with
              | .vStr nm => (some ⟨apiVersion, kind, some nm, none⟩, [])
              | _ => (none, [errDiag "matchName in requirement selector was not a string"])
          else
            let lv := s.matchLabels.eval ctx
            if !lv.1.isWhollyKnown then (none, downgradeDiags lv.2)
            else
              match lv.1 with
              | .vObj fields =>
                match labelsFromMap requirementName fields with
                | .error d => (none, [d])
                | .ok labels => (some ⟨apiVersion, kind, none, some labels⟩, [])
              | _ => (none, [errDiag "matchLabels in requirement selector was not an object"])
        | _ => (none, [errDiag "kind in requirement selector was not a string"])
    | _ => (none, [errDiag "api version in requirement selector was not a string"])

/-- `selectionToSelector` including its deferred function: a nil selector
with error-free diagnostics records a `requirement`/`incomplete` discard. -/
def selectionToSelector (requirementName : String) (ctx : EvalCtx)
    (s : Selection) (st : EvalState) : (Option Selector × List Diag) × EvalState :=
  let r := selectionToSelectorCore requirementName ctx s
  if r.1.isNone && !(hasErrors r.2) then
    (r, st.discard ⟨"requirement", "incomplete", requirementName⟩)
  else (r, st)

/-- `processRequirement` (requirements.go lines 48-100).  The final guard of
the Go code reads `if sel != nil { e.requirements[name] = selector }` — it
tests the parsed selection `sel`, which is never nil at that point, instead
of the just-computed `selector`, so an entry is installed under the name
even when the selector is nil. -/
def processRequirement (ctx : EvalCtx) (st : EvalState) (name : String)
    (block : RequirementBlock) : Outcome (EvalState × List Diag) :=
  if (lookupField st.requirements name).isSome then
    .ok (st, [errDiag ("multiple requirements with name: " ++ name)])
  else
    match block.sel with
    | none => .ok (st, [errDiag ("no select block in requirement: " ++ name)])
    | some sel =>
      let l := block.localsF ctx
      if hasErrors l.2 then .ok (st, l.2)
      else
        match evaluateCondition l.1 block.condition "requirement" name st with
        | (.crashed, _, _) => .crashed "cty: value is not known"
        | (.err, st, cds) => .ok (st, cds)
        | (.ok false, st, cds) => .ok (st, l.2 ++ cds)
        | (.ok true, st, cds) =>
          let r := selectionToSelector name l.1 sel st
          if hasErrors r.1.2 then .ok (r.2, r.1.2)
          else
            .ok ({ r.2 with requirements := setField r.2.requirements name r.1.1 },
              l.2 ++ cds ++ r.1.2)

/-- The readiness loop of `toResponse` (eval.go lines 208-214): each entry
of the `ready` map must have a desired resource, else the Go code panics. -/
def applyReadyLoop : List (String × (Value × Option String)) →
    List (String × String) → Outcome (List (String × (Value × Option String)))
  | desired, [] => .ok desired
  | desired, (name, v) :: rest =>
    match lookupField desired name with
    | none =>
      .crashed ("internal error: no desired resource found for " ++ name ++
        " when readiness set")
    | some dv => applyReadyLoop (setField desired name (dv.1, some v)) rest

/-- `ret.Desired.Resources` before readiness is applied. -/
def desiredWithReady (st : EvalState) : List (String × (Value × Option String)) :=
  st.desiredResources.map (fun p => (p.1, (p.2, none)))

/-- The states reachable by the evaluator from its initial state through the
state-modifying block processors (group/resources-level condition discards
are covered by the `condDiscard` step). -/
inductive Reachable : EvalState → Prop where
  | init : Reachable initState
  | resource (existing existingConn : List (String × Value)) (ctx : EvalCtx)
      (st : EvalState) (name : String) (content : ResourceContent)
      (st' : EvalState) (ds : List Diag) :
      Reachable st →
      addResource existing existingConn ctx st name content = .ok (st', ds) →
      Reachable st'
  | requirement (ctx : EvalCtx) (st : EvalState) (name : String)
      (block : RequirementBlock) (st' : EvalState) (ds : List Diag) :
      Reachable st →
      processRequirement ctx st name block = .ok (st', ds) →
      Reachable st'
  | condDiscard (st : EvalState) (d : DiscardItem) :
      Reachable st → Reachable (st.discard d)
  | compositeStep (ctx : EvalCtx) (st : EvalState) (e : HclExpr) :
      Reachable st → Reachable (processComposite ctx st e).1
  | contextStep (ctx : EvalCtx) (st : EvalState) (e : HclExpr) :
      Reachable st → Reachable (processContext ctx st e).1

/-- The C9 invariant: every entry of the `ready` map has a desired
resource. -/
def ReadyInv (st : EvalState) : Prop :=
  ∀ p ∈ st.ready, (lookupField st.desiredResources p.1).isSome = true

theorem mem_setField {α : Type} {l : List (String × α)} {k : String} {v : α} :
    ∀ p ∈ setField l k v, p = (k, v) ∨ p ∈ l := by
  induction l with
  | nil => intro p hp; simp [setField] at hp; exact Or.inl hp
  | cons f fs ih =>
    intro p hp
    by_cases hf : f.1 = k
    · simp only [setField, hf, if_pos] at hp
      rcases List.mem_cons.mp hp with rfl | hp'
      · exact Or.inl rfl
      · exact Or.inr (List.mem_cons_of_mem _ hp')
    · simp only [setField, hf, if_false] at hp
      rcases List.mem_cons.mp hp with rfl | hp'
      · exact Or.inr (List.mem_cons_self _ _)
      · rcases ih p hp' with h | h
        · exact Or.inl h
        · exact Or.inr (List.mem_cons_of_mem _ h)

theorem lookupField_map_isSome {α β : Type} (l : List (String × α))
    (f : String × α → β) (k : String) :
    (lookupField (l.map (fun p => (p.1, f p))) k).isSome = (lookupField l k).isSome := by
  induction l with
  | nil => rfl
  | cons p ps ih =>
    by_cases hp : p.1 = k
    · simp [lookupField, hp]
    · simp [lookupField, hp, ih]

theorem processReady_desired (ctx : EvalCtx) (st : EvalState) (rn : String)
    (rb : ReadyBlock) :
    (processReady ctx st rn rb).1.desiredResources = st.desiredResources := by
  simp only [processReady]
  repeat' split
  all_goals simp [EvalState.discard]

theorem processReady_ready_sub (ctx : EvalCtx) (st : EvalState) (rn : String)
    (rb : ReadyBlock) :
    ∀ p ∈ (processReady ctx st rn rb).1.ready, p.1 = rn ∨ p ∈ st.ready := by
  simp only [processReady]
  repeat' split
  all_goals intro p hp
  all_goals simp only [EvalState.discard] at hp
  all_goals try exact Or.inr hp
  · rcases mem_setField p hp with rfl | h
    · exact Or.inl rfl
    · exact Or.inr h

theorem processComposite_fields (ctx : EvalCtx) (st : EvalState) (e : HclExpr) :
    (processComposite ctx st e).1.desiredResources = st.desiredResources ∧
    (processComposite ctx st e).1.ready = st.ready := by
  simp only [processComposite]
  split <;> simp

theorem processContext_fields (ctx : EvalCtx) (st : EvalState) (e : HclExpr) :
    (processContext ctx st e).1.desiredResources = st.desiredResources ∧
    (processContext ctx st e).1.ready = st.ready := by
  simp only [processContext]
  split <;> simp

theorem processSubBlock_desired (ctx : EvalCtx) (st : EvalState) (rn : String)
    (b : SubBlock) :
    (processSubBlock ctx st rn b).1.desiredResources = st.desiredResources := by
  cases b with
  | composite e => exact (processComposite_fields ctx st e).1
  | ready rb => exact processReady_desired ctx st rn rb
  | contextB e => exact (processContext_fields ctx st e).1

theorem processSubBlock_ready_sub (ctx : EvalCtx) (st : EvalState) (rn : String)
    (b : SubBlock) :
    ∀ p ∈ (processSubBlock ctx st rn b).1.ready, p.1 = rn ∨ p ∈ st.ready := by
  cases b with
  | composite e => intro p hp; exact Or.inr ((processComposite_fields ctx st e).2 ▸ hp)
  | ready rb => exact processReady_ready_sub ctx st rn rb
  | contextB e => intro p hp; exact Or.inr ((processContext_fields ctx st e).2 ▸ hp)

theorem processSubBlock_readyInv {ctx : EvalCtx} {st : EvalState} {rn : String}
    (b : SubBlock) (hinv : ReadyInv st)
    (hdes : (lookupField st.desiredResources rn).isSome = true) :
    ReadyInv (processSubBlock ctx st rn b).1 := by
  intro p hp
  rw [processSubBlock_desired]
  rcases processSubBlock_ready_sub ctx st rn b p hp with h | h
  · rw [h]; exact hdes
  · exact hinv p h

theorem processSubBlocks_readyInv (ctx : EvalCtx) (rn : String) :
    ∀ (bs : List SubBlock) (st : EvalState) (diags : List Diag),
      ReadyInv st → (lookupField st.desiredResources rn).isSome = true →
      ReadyInv (processSubBlocks ctx rn st diags bs).1 := by
  intro bs
  induction bs with
  | nil => intro st diags hinv _; exact hinv
  | cons b bs ih =>
    intro st diags hinv hdes
    simp only [processSubBlocks]
    split
    · exact processSubBlock_readyInv b hinv hdes
    · exact ih _ _ (processSubBlock_readyInv b hinv hdes)
        (by rw [processSubBlock_desired]; exact hdes)

theorem evaluateCondition_preserves (ctx : EvalCtx) (c : Option HclExpr)
    (et n : String) (st : EvalState) :
    (evaluateCondition ctx c et n st).2.1.desiredResources = st.desiredResources ∧
    (evaluateCondition ctx c et n st).2.1.ready = st.ready ∧
    (evaluateCondition ctx c et n st).2.1.requirements = st.requirements := by
  simp only [evaluateCondition]
  repeat' split
  all_goals simp [EvalState.discard]

theorem readyInv_insert {st : EvalState} (hinv : ReadyInv st) (name : String) (v : Value) :
    ReadyInv { st with desiredResources := setField st.desiredResources name v } := by
  intro p hp
  show (lookupField (setField st.desiredResources name v) p.1).isSome = true
  rw [lookupField_setField]
  split
  · rfl
  · exact hinv p hp

theorem addResource_readyInv {existing existingConn : List (String × Value)}
    {ctx : EvalCtx} {st : EvalState} {name : String} {content : ResourceContent}
    {st' : EvalState} {ds : List Diag}
    (h : addResource existing existingConn ctx st name content = Outcome.ok (st', ds))
    (hinv : ReadyInv st) : ReadyInv st' := by
  obtain ⟨lf, cnd, bdy, bvars, blks⟩ := content
  simp only [addResource] at h
  by_cases hdup : (lookupField st.desiredResources name).isSome = true
  · rw [if_pos hdup] at h
    injection h with h2
    rw [Prod.mk.injEq] at h2
    exact h2.1 ▸ hinv
  · rw [if_neg hdup] at h
    by_cases hle : hasErrors (lf (selfCtxOf existing existingConn ctx name)).2 = true
    · rw [if_pos hle] at h
      injection h with h2
      rw [Prod.mk.injEq] at h2
      exact h2.1 ▸ hinv
    · rw [if_neg hle] at h
      cases bdy with
      | none =>
        simp only at h
        injection h with h2
        rw [Prod.mk.injEq] at h2
        exact h2.1 ▸ hinv
      | some body =>
        simp only at h
        rcases hceq : evaluateCondition (lf (selfCtxOf existing existingConn ctx name)).1
          cnd "resource" name st with ⟨c, st2, cds2⟩
        rw [hceq] at h
        have hpres := evaluateCondition_preserves
          (lf (selfCtxOf existing existingConn ctx name)).1 cnd "resource" name st
        rw [hceq] at hpres
        have hdes2 : st2.desiredResources = st.desiredResources := hpres.1
        have hrdy2 : st2.ready = st.ready := hpres.2.1
        have hinv2 : ReadyInv st2 := by
          intro p hp
          rw [hdes2]
          exact hinv p (hrdy2 ▸ hp)
        cases c with
        | crashed => exact absurd h (by simp)
        | err =>
          simp only at h
          injection h with h2
          rw [Prod.mk.injEq] at h2
          exact h2.1 ▸ hinv2
        | ok b =>
          cases b with
          | false =>
            simp only at h
            injection h with h2
            rw [Prod.mk.injEq] at h2
            exact h2.1 ▸ hinv2
          | true =>
            simp only at h
            by_cases hbad : (hasErrors
                (body.eval (lf (selfCtxOf existing existingConn ctx name)).1).2 ||
              !(body.eval (lf (selfCtxOf existing existingConn ctx name)).1).1.isWhollyKnown) = true
            · rw [if_pos hbad] at h
              by_cases hobs : (lookupField existing name).isSome = true
              · rw [if_pos hobs] at h
                injection h with h2
                rw [Prod.mk.injEq] at h2
                exact h2.1 ▸ hinv2
              · rw [if_neg hobs] at h
                injection h with h2
                rw [Prod.mk.injEq] at h2
                refine h2.1 ▸ ?_
                intro p hp
                simp only [EvalState.discard] at hp ⊢
                exact hinv2 p hp
            · rw [if_neg hbad] at h
              injection h with h2
              have h2f := congrArg Prod.fst h2
              simp only at h2f
              rw [← h2f]
              refine processSubBlocks_readyInv _ name blks _ _ ?_ ?_
              · exact readyInv_insert hinv2 name _
              · show (lookupField (setField st2.desiredResources name
                    (body.eval (lf (selfCtxOf existing existingConn ctx name)).1).1)
                    name).isSome = true
                rw [lookupField_setField]
                simp

theorem selectionToSelector_preserves (n : String) (ctx : EvalCtx) (sel : Selection)
    (st : EvalState) :
    (selectionToSelector n ctx sel st).2.desiredResources = st.desiredResources ∧
    (selectionToSelector n ctx sel st).2.ready = st.ready := by
  simp only [selectionToSelector]
  split <;> simp [EvalState.discard]

theorem processRequirement_fields {ctx : EvalCtx} {st : EvalState} {name : String}
    {block : RequirementBlock} {st' : EvalState} {ds : List Diag}
    (h : processRequirement ctx st name block = Outcome.ok (st', ds)) :
    st'.desiredResources = st.desiredResources ∧ st'.ready = st.ready := by
  obtain ⟨lf, cnd, sel⟩ := block
  simp only [processRequirement] at h
  by_cases hdup : (lookupField st.requirements name).isSome = true
  · rw [if_pos hdup] at h
    injection h with h2
    rw [Prod.mk.injEq] at h2
    exact ⟨by rw [← h2.1], by rw [← h2.1]⟩
  · rw [if_neg hdup] at h
    cases sel with
    | none =>
      simp only at h
      injection h with h2
      rw [Prod.mk.injEq] at h2
      exact ⟨by rw [← h2.1], by rw [← h2.1]⟩
    | some sl =>
      simp only at h
      by_cases hle : hasErrors (lf ctx).2 = true
      · rw [if_pos hle] at h
        injection h with h2
        rw [Prod.mk.injEq] at h2
        exact ⟨by rw [← h2.1], by rw [← h2.1]⟩
      · rw [if_neg hle] at h
        rcases hceq : evaluateCondition (lf ctx).1 cnd "requirement" name st
          with ⟨c, st2, cds2⟩
        rw [hceq] at h
        have hpres := evaluateCondition_preserves (lf ctx).1 cnd "requirement" name st
        rw [hceq] at hpres
        have hdes2 : st2.desiredResources = st.desiredResources := hpres.1
        have hrdy2 : st2.ready = st.ready := hpres.2.1
        cases c with
        | crashed => exact absurd h (by simp)
        | err =>
          simp only at h
          injection h with h2
          rw [Prod.mk.injEq] at h2
          exact ⟨by rw [← h2.1]; exact hdes2, by rw [← h2.1]; exact hrdy2⟩
        | ok b =>
          cases b with
          | false =>
            simp only at h
            injection h with h2
            rw [Prod.mk.injEq] at h2
            exact ⟨by rw [← h2.1]; exact hdes2, by rw [← h2.1]; exact hrdy2⟩
          | true =>
            simp only at h
            have hsel := selectionToSelector_preserves name (lf ctx).1 sl st2
            by_cases hse : hasErrors (selectionToSelector name (lf ctx).1 sl st2).1.2 = true
            · rw [if_pos hse] at h
              injection h with h2
              rw [Prod.mk.injEq] at h2
              exact ⟨by rw [← h2.1]; rw [hsel.1]; exact hdes2,
                by rw [← h2.1]; rw [hsel.2]; exact hrdy2⟩
            · rw [if_neg hse] at h
              injection h with h2
              rw [Prod.mk.injEq] at h2
              refine ⟨?_, ?_⟩
              · rw [← h2.1]
                show (selectionToSelector name (lf ctx).1 sl st2).2.desiredResources =
                  st.desiredResources
                rw [hsel.1]
                exact hdes2
              · rw [← h2.1]
                show (selectionToSelector name (lf ctx).1 sl st2).2.ready = st.ready
                rw [hsel.2]
                exact hrdy2

theorem reachable_readyInv {st : EvalState} (h : Reachable st) : ReadyInv st := by
  induction h with
  | init => intro p hp; simp [initState] at hp
  | resource _ _ _ _ _ _ _ _ _ hstep ih => exact addResource_readyInv hstep ih
  | requirement _ _ _ _ _ _ _ hstep ih =>
    obtain ⟨hd, hr⟩ := processRequirement_fields hstep
    intro p hp
    rw [hd]
    exact ih p (hr ▸ hp)
  | condDiscard st d _ ih =>
    intro p hp
    simp only [EvalState.discard] at hp ⊢
    exact ih p hp
  | compositeStep ctx st e _ ih =>
    obtain ⟨hd, hr⟩ := processComposite_fields ctx st e
    intro p hp
    rw [hd]
    exact ih p (hr ▸ hp)
  | contextStep ctx st e _ ih =>
    obtain ⟨hd, hr⟩ := processContext_fields ctx st e
    intro p hp
    rw [hd]
    exact ih p (hr ▸ hp)

theorem applyReadyLoop_ok :
    ∀ (entries : List (String × String)) (acc : List (String × (Value × Option String))),
      (∀ p ∈ entries, (lookupField acc p.1).isSome = true) →
      ∃ r, applyReadyLoop acc entries = Outcome.ok r := by
  intro entries
  induction entries with
  | nil => intro acc _; exact ⟨acc, rfl⟩
  | cons e rest ih =>
    intro acc hacc
    obtain ⟨en, ev⟩ := e
    have h1 : (lookupField acc en).isSome = true := hacc (en, ev) (by simp)
    cases hlk : lookupField acc en with
    | none => rw [hlk] at h1; simp at h1
    | some dv =>
      have hred : applyReadyLoop acc ((en, ev) :: rest) =
          applyReadyLoop (setField acc en (dv.1, some ev)) rest := by
        simp [applyReadyLoop, hlk]
      rw [hred]
      refine ih _ ?_
      intro p hp
      rw [lookupField_setField]
      split
      · rfl
      · exact hacc p (by simp [hp])

/-- C9: in every reachable evaluator state, each entry of the `ready` map
has a matching desired resource — a `ready` tag is only ever recorded by
`processReady`, which `addResource` invokes only after installing the
resource body, and desired resources are never removed — so the readiness
loop of `toResponse` always completes without hitting its panic branch. -/
theorem claim_C9_ready_subset_desired (st : EvalState) (h : Reachable st) :
    ReadyInv st ∧
    ∀ entries : List (String × String), (∀ p ∈ entries, p ∈ st.ready) →
      ∃ r, applyReadyLoop (desiredWithReady st) entries = Outcome.ok r := by
  have hinv := reachable_readyInv h
  refine ⟨hinv, ?_⟩
  intro entries hentries
  refine applyReadyLoop_ok entries (desiredWithReady st) ?_
  intro p hp
  show (lookupField (st.desiredResources.map (fun q => (q.1, (q.2, none)))) p.1).isSome = true
  rw [lookupField_map_isSome]
  exact hinv p (hentries p hp)

/-- The resource content used by the C9 witness: a trivial body plus a
ready block setting `READY_TRUE`. -/
def c9content : ResourceContent :=
  ⟨fun c => (c, []), none, some ⟨fun _ => (.vObj [], [])⟩, [],
   [.ready ⟨fun c => (c, []), some ⟨fun _ => (.vStr "READY_TRUE", [])⟩⟩]⟩

/-- The state after adding the witness resource. -/
def w9state : EvalState :=
  ⟨[("web", .vObj [])], [("web", "READY_TRUE")], [], [], [], []⟩

theorem claim_C9_witness :
    Reachable w9state ∧
    (ReadyInv w9state ∧
      ∀ entries : List (String × String), (∀ p ∈ entries, p ∈ w9state.ready) →
        ∃ r, applyReadyLoop (desiredWithReady w9state) entries = Outcome.ok r) :=
  have hre : Reachable w9state :=
    Reachable.resource [] [] (.root []) initState "web" c9content w9state []
      Reachable.init rfl
  ⟨hre, claim_C9_ready_subset_desired w9state hre⟩

/-- C6: a known `true` condition continues with no discard, a known `false`
condition records a `user-condition` discard and skips, and a non-boolean
value yields an error diagnostic — but an incomplete (unknown) value of
type bool passes the `val.Type() != cty.Bool` check and reaches
`val.True()`, which panics in `cty`: contrary to the claim, the incomplete
case is a crash, not an error diagnostic. -/
theorem claim_C6_condition_unknown_crashes :
    (evaluateCondition (.root []) (some ⟨fun _ => (.vBool true, [])⟩)
        "resource" "r" initState = (.ok true, initState, [])) ∧
    (evaluateCondition (.root []) (some ⟨fun _ => (.vBool false, [])⟩)
        "resource" "r" initState =
      (.ok false, initState.discard ⟨"resource", "user-condition", "r"⟩, [])) ∧
    ((evaluateCondition (.root []) (some ⟨fun _ => (.vStr "x", [])⟩)
        "resource" "r" initState).1 = CondResult.err) ∧
    ((evaluateCondition (.root []) (some ⟨fun _ => (.vStr "x", [])⟩)
        "resource" "r" initState).2.2 =
      [errDiag "got type string, expected bool"]) ∧
    ((evaluateCondition (.root []) (some ⟨fun _ => (.unknown .boolT, [])⟩)
        "resource" "r" initState).1 = CondResult.crashed) :=
  ⟨rfl, rfl, rfl, rfl, rfl⟩

/-- The requirement block of the C3 theorem: a structurally valid selection
whose `matchName` evaluates to an unknown string. -/
def c3block : RequirementBlock :=
  ⟨fun c => (c, []), none,
   some ⟨true, ⟨fun _ => (.vStr "v1", [])⟩, ⟨fun _ => (.vStr "Thing", [])⟩,
     ⟨fun _ => (.unknown .strT, [])⟩, ⟨fun _ => (.vNull, [])⟩⟩⟩

/-- Like `c3block` but with a known `matchName`. -/
def c3goodBlock : RequirementBlock :=
  ⟨fun c => (c, []), none,
   some ⟨true, ⟨fun _ => (.vStr "v1", [])⟩, ⟨fun _ => (.vStr "Thing", [])⟩,
     ⟨fun _ => (.vStr "db", [])⟩, ⟨fun _ => (.vNull, [])⟩⟩⟩

/-- C3: when a selector value is incomplete, processing does record a
`requirement`/`incomplete` discard and raises no fatal error — but, because
the final guard of `processRequirement` tests the parsed selection (`sel`)
instead of the computed `selector`, the `requirements` map receives an
entry under the requirement name whose value is nil, rather than being left
without an entry as the claim states.  When all values are known and
well-typed the selector is installed as claimed. -/
theorem claim_C3_requirement_nil_entry :
    (processRequirement (.root []) initState "req" c3block =
      Outcome.ok
        (⟨[], [], [], [], [("req", none)],
          [⟨"requirement", "incomplete", "req"⟩]⟩, []) ∧
      lookupField
        (⟨[], [], [], [], [("req", none)],
          [⟨"requirement", "incomplete", "req"⟩]⟩ : EvalState).requirements "req" =
        some none) ∧
    (processRequirement (.root []) initState "req" c3goodBlock =
      Outcome.ok
        (⟨[], [], [], [],
          [("req", some ⟨"v1", "Thing", some "db", none⟩)], []⟩, [])) :=
  ⟨⟨rfl, rfl⟩, rfl⟩

theorem mentions_append_right {msg v : String} (suf : String) (h : mentions msg v) :
    mentions (msg ++ suf) v := by
  obtain ⟨s1, s2, rfl⟩ := h
  exact ⟨s1, s2 ++ suf, by simp [String.append_assoc]⟩

theorem commaJoin_mentions : ∀ (l : List String), ∀ v ∈ l, mentions (commaJoin l) v := by
  intro l
  induction l with
  | nil => simp
  | cons x rest ih =>
    intro v hv
    cases rest with
    | nil =>
      simp only [List.mem_singleton] at hv
      subst hv
      exact ⟨"", "", by simp [commaJoin]⟩
    | cons y rest' =>
      rcases List.mem_cons.mp hv with rfl | hv'
      · exact ⟨"", ", " ++ commaJoin (y :: rest'), by simp [commaJoin, String.append_assoc]⟩
      · have := ih v hv'
        have h2 := mentions_append_left (x ++ ", ") this
        obtain ⟨s1, s2, hs⟩ := h2
        exact ⟨s1, s2, by simp only [commaJoin]; exact hs⟩

/-- C1: when the body of a resource has evaluation errors or is not wholly
known, `addResource` distinguishes on whether the name is in the observed
resource map: if observed, it fails hard with an error diagnostic that
mentions the resource name and every reported unknown path, leaving the
state untouched (no discard, no silent drop); if not observed, it records a
`resource`/`incomplete` discard, downgrades the expression diagnostics to
warnings, and returns without a fatal error so evaluation continues. -/
theorem claim_C1_observed_safety (existing existingConn : List (String × Value))
    (ctx : EvalCtx) (st : EvalState) (name : String) (content : ResourceContent)
    (body : HclExpr)
    (hdup : lookupField st.desiredResources name = none)
    (hloc : content.localsF = fun c => (c, []))
    (hcond : content.condition = none)
    (hbody : content.body = some body)
    (hbad : (hasErrors (body.eval (selfCtxOf existing existingConn ctx name)).2 ||
      !(body.eval (selfCtxOf existing existingConn ctx name)).1.isWhollyKnown) = true) :
    ((lookupField existing name).isSome = true →
      addResource existing existingConn ctx st name content =
        Outcome.ok (st, (body.eval (selfCtxOf existing existingConn ctx name)).2 ++
          [errDiag ("existing resource " ++ name ++
            " could not be evaluated, abort (unknown values: " ++
            commaJoin (incompleteVarsOf content.bodyVars) ++ ")")]) ∧
      hasErrors ((body.eval (selfCtxOf existing existingConn ctx name)).2 ++
        [errDiag ("existing resource " ++ name ++
          " could not be evaluated, abort (unknown values: " ++
          commaJoin (incompleteVarsOf content.bodyVars) ++ ")")]) = true ∧
      mentions ("existing resource " ++ name ++
        " could not be evaluated, abort (unknown values: " ++
        commaJoin (incompleteVarsOf content.bodyVars) ++ ")") name ∧
      ∀ p ∈ incompleteVarsOf content.bodyVars,
        mentions ("existing resource " ++ name ++
          " could not be evaluated, abort (unknown values: " ++
          commaJoin (incompleteVarsOf content.bodyVars) ++ ")") p) ∧
    ((lookupField existing name).isSome = false →
      addResource existing existingConn ctx st name content =
        Outcome.ok (st.discard ⟨"resource", "incomplete", name⟩,
          downgradeDiags (body.eval (selfCtxOf existing existingConn ctx name)).2) ∧
      hasErrors (downgradeDiags
        (body.eval (selfCtxOf existing existingConn ctx name)).2) = false) := by
  have h1 : (lookupField st.desiredResources name).isSome = false := by rw [hdup]; rfl
  constructor
  · intro hobs
    refine ⟨?_, ?_, ?_, ?_⟩
    · simp [addResource, h1, hloc, hcond, hbody, hbad, hobs, evaluateCondition, hasErrors_nil]
    · rw [hasErrors_append]
      simp [hasErrors, errDiag]
    · exact ⟨"existing resource ",
        " could not be evaluated, abort (unknown values: " ++
          commaJoin (incompleteVarsOf content.bodyVars) ++ ")",
        by simp [String.append_assoc]⟩
    · intro p hp
      have h3 := commaJoin_mentions (incompleteVarsOf content.bodyVars) p hp
      have h4 := mentions_append_left ("existing resource " ++ name ++
        " could not be evaluated, abort (unknown values: ") h3
      exact mentions_append_right ")" h4
  · intro hobs
    refine ⟨?_, hasErrors_downgradeDiags _⟩
    simp [addResource, h1, hloc, hcond, hbody, hbad, hobs, evaluateCondition, hasErrors_nil]

/-- The body expression of the C1 witness: a wholly unknown object. -/
def c1body : HclExpr := ⟨fun _ => (.unknown .objT, [])⟩

/-- The resource content of the C1 witness. -/
def c1content : ResourceContent :=
  ⟨fun c => (c, []), none, some c1body, [("self.resource", .unknown .objT)], []⟩

theorem claim_C1_witness :
    (lookupField initState.desiredResources "web" = none ∧
      c1content.localsF = (fun c => (c, [])) ∧
      c1content.condition = none ∧
      c1content.body = some c1body ∧
      (hasErrors (c1body.eval (selfCtxOf [("web", .vObj [])] [] (.root []) "web")).2 ||
        !(c1body.eval
          (selfCtxOf [("web", .vObj [])] [] (.root []) "web")).1.isWhollyKnown) = true) ∧
    (((lookupField [("web", Value.vObj [])] "web").isSome = true →
      addResource [("web", .vObj [])] [] (.root []) initState "web" c1content =
        Outcome.ok (initState,
          (c1body.eval (selfCtxOf [("web", .vObj [])] [] (.root []) "web")).2 ++
          [errDiag ("existing resource " ++ "web" ++
            " could not be evaluated, abort (unknown values: " ++
            commaJoin (incompleteVarsOf c1content.bodyVars) ++ ")")]) ∧
      hasErrors ((c1body.eval (selfCtxOf [("web", .vObj [])] [] (.root []) "web")).2 ++
        [errDiag ("existing resource " ++ "web" ++
          " could not be evaluated, abort (unknown values: " ++
          commaJoin (incompleteVarsOf c1content.bodyVars) ++ ")")]) = true ∧
      mentions ("existing resource " ++ "web" ++
        " could not be evaluated, abort (unknown values: " ++
        commaJoin (incompleteVarsOf c1content.bodyVars) ++ ")") "web" ∧
      ∀ p ∈ incompleteVarsOf c1content.bodyVars,
        mentions ("existing resource " ++ "web" ++
          " could not be evaluated, abort (unknown values: " ++
          commaJoin (incompleteVarsOf c1content.bodyVars) ++ ")") p) ∧
    ((lookupField [("web", Value.vObj [])] "web").isSome = false →
      addResource [("web", .vObj [])] [] (.root []) initState "web" c1content =
        Outcome.ok (initState.discard ⟨"resource", "incomplete", "web"⟩,
          downgradeDiags
            (c1body.eval (selfCtxOf [("web", .vObj [])] [] (.root []) "web")).2) ∧
      hasErrors (downgradeDiags
        (c1body.eval (selfCtxOf [("web", .vObj [])] [] (.root []) "web")).2) = false)) :=
  ⟨⟨rfl, rfl, rfl, rfl, rfl⟩,
   claim_C1_observed_safety [("web", .vObj [])] [] (.root []) initState "web"
     c1content c1body rfl rfl rfl rfl rfl⟩

/-! ## `trackBaseNames` / `makeVars`: the `req` namespace (vars.go) -/

/-- Go `delete(m, k)` on a map modelled as an association list with unique
keys. -/
def removeField {α : Type} : List (String × α) → String → List (String × α)
  | [], _ => []
  | f :: fs, k => if f.1 = k then fs else f :: removeField fs k

/-- `unstructured.NestedStringMap(obj, "metadata", "annotations")`: the
annotations of an observed resource, when present and all strings. -/
def stringPairs : List (String × Value) → Option (List (String × String))
  | [] => some []
  | (k, .vStr s) :: rest => (stringPairs rest).map (fun r => (k, s) :: r)
  | _ => none

def getAnnotations (v : Value) : Option (List (String × String)) :=
  match v with
  | .vObj fs =>
    match lookupField fs "metadata" with
    | some (.vObj m) =>
      match lookupField m "annotations" with
      | some (.vObj a) => stringPairs a
      | _ => none
    | _ => none
  | _ => none

/-- The annotation keys for collections. -/
def annotationBaseName : String := "hcl.fn.crossplane.io/collection-base-name"

def annotationIndex : String := "hcl.fn.crossplane.io/collection-index"

/-- Lexicographic string comparison (Go `<` on strings), written over the
character lists so that it evaluates. -/
def charListLt : List Char → List Char → Bool
  | _, [] => false
  | [], _ :: _ => true
  | a :: as, b :: bs =>
    if a.toNat < b.toNat then true
    else if b.toNat < a.toNat then false
    else charListLt as bs

def strLt (a b : String) : Bool := charListLt a.data b.data

/-- Insertion into the index-sorted member list (`sort.Slice` by the
`collection-index` annotation, string comparison). -/
def insertByIndex (x : String × String) : List (String × String) → List (String × String)
  | [] => [x]
  | y :: ys => if strLt x.2 y.2 then x :: y :: ys else y :: insertByIndex x ys

def sortByIndex (l : List (String × String)) : List (String × String) :=
  l.foldr insertByIndex []

/-- `trackBaseNames`: group observed resources by their
`collection-base-name` annotation, remembering the `collection-index`
annotation, then sort each group by index (string sort) and keep the
names. -/
def trackBaseNames (observed : List (String × Value)) : List (String × List String) :=
  let collect := observed.foldl
    (fun (out : List (String × List (String × String))) p =>
      match getAnnotations p.2 with
      | none => out
      | some anns =>
        let baseName := (lookupField anns annotationBaseName).getD ""
        if baseName = "" then out
        else
          let index := (lookupField anns annotationIndex).getD ""
          setField out baseName ((lookupField out baseName).getD [] ++ [(p.1, index)]))
    []
  collect.map (fun kv => (kv.1, (sortByIndex kv.2).map Prod.fst))

/-- The slice of the `req` namespace that claim C2 concerns. -/
structure ReqVars where
  reqResource : List (String × Value)
  reqResources : List (String × List Value)
  existingResourceMap : List (String × Value)

/-- `makeVars`, restricted to the observed-resource plumbing: the `req`
object's `resource` entry is the cty object built from the observed
resources; `e.existingResourceMap` is the fresh Go map returned by
`AsValueMap`, from which the collection loop reads each member and then
deletes it.  The deletions mutate only that fresh map: the cty value stored
under `resource` in `topMap` — the one the DSL sees — is never rebuilt. -/
def makeVars (observed : List (String × Value)) : ReqVars :=
  let baseNameMap := trackBaseNames observed
  let existing0 := observed
  let step := baseNameMap.foldl
    (fun (acc : List (String × List Value) × List (String × Value)) kv =>
      let inner := kv.2.foldl
        (fun (ir : List Value × List (String × Value)) resName =>
          (ir.1 ++ [getObserved ir.2 resName], removeField ir.2 resName))
        ([], acc.2)
      (acc.1 ++ [(kv.1, inner.1)], inner.2))
    ([], existing0)
  { reqResource := observed,
    reqResources := step.1,
    existingResourceMap := step.2 }

/-- The observed resources of the C2 theorem: two members of the `buckets`
collection (listed out of index order) and one plain resource. -/
def c2observed : List (String × Value) :=
  [("buckets-1", .vObj [("metadata", .vObj [("annotations", .vObj
      [(annotationBaseName, .vStr "buckets"),
       (annotationIndex, .vStr "1")])])]),
   ("buckets-0", .vObj [("metadata", .vObj [("annotations", .vObj
      [(annotationBaseName, .vStr "buckets"),
       (annotationIndex, .vStr "0")])])]),
   ("plain", .vObj [("metadata", .vObj [])])]

/-- C2: collection membership and index-sorting work as claimed — the
tuple at `resources["buckets"]` holds both members sorted by their index
annotation — and the members are deleted from the internal
`existingResourceMap`; but the `resource` map visible in the DSL still
contains them: the deletion hits only the fresh Go map returned by
`AsValueMap`, while the cty object stored under `resource` is never
rebuilt, so observed collection members are not removed from the flat
`req.resource` map as the claim states. -/
theorem claim_C2_member_not_removed_from_resource :
    trackBaseNames c2observed = [("buckets", ["buckets-0", "buckets-1"])] ∧
    (makeVars c2observed).reqResources =
      [("buckets",
        [.vObj [("metadata", .vObj [("annotations", .vObj
            [(annotationBaseName, .vStr "buckets"),
             (annotationIndex, .vStr "0")])])],
         .vObj [("metadata", .vObj [("annotations", .vObj
            [(annotationBaseName, .vStr "buckets"),
             (annotationIndex, .vStr "1")])])]])] ∧
    lookupField (makeVars c2observed).existingResourceMap "buckets-0" = none ∧
    lookupField (makeVars c2observed).existingResourceMap "buckets-1" = none ∧
    ((lookupField (makeVars c2observed).existingResourceMap "plain").isSome = true) ∧
    ((lookupField (makeVars c2observed).reqResource "buckets-0").isSome = true) ∧
    ((lookupField (makeVars c2observed).reqResource "buckets-1").isSome = true) :=
  ⟨rfl, rfl, rfl, rfl, rfl, rfl, rfl⟩

end FnHcl
